import Mathlib

set_option linter.unusedVariables false

/-! # Verification of the sentence-location core of the ai-detection extension

Shallow embedding of `src/browser-extension/src/highlight.ts`.

Modelling conventions:
* JS strings are modelled as `List Char`.  All characters appearing in the
  relevant character classes are in the Basic Multilingual Plane, so UTF-16
  code units coincide with Unicode scalar values and JS string indices
  coincide with list indices.
* `String.prototype.toLowerCase` is modelled per input code unit by
  `lowerJS`: the ASCII simple case map (`lowerChar`) together with the one
  unconditional length-changing mapping of Unicode SpecialCasing,
  U+0130 -> U+0069 U+0307, the single case in which `toLowerCase` changes
  a string's UTF-16 length.  Other non-ASCII one-to-one simple case
  mappings are modelled as the identity: they can change which occurrences
  match, but not the offset arithmetic, which depends only on lengths and
  on the ASCII character classes.
* JS numbers that the core only copies (the `generated_prob` scores) are
  modelled as `Rat`.
* DOM `Text` nodes are modelled as `TextNode` values carrying the node's
  character data, its chain of ancestor elements (immediate parent first)
  and a numeric identity standing for the `WeakMap`-assigned id of
  `getTextNodeId`; distinct nodes collected in one call receive distinct
  ids, exactly as the `WeakMap` guarantees.
* The JS `Map`/`Set` used for the normalization cache and the claim set are
  modelled as association lists / lists of keys; `locationKey`'s string
  `"<id>:<start>:<end>"` is modelled by the triple `(id, start, end)`
  (the decimal rendering with `:` separators is injective on such triples).
* Each `while` loop of the source is embedded as a structurally recursive
  function on an explicit iteration bound (the quantity that the loop
  strictly decreases); the bound chosen at each call site dominates the
  loop's iteration count, and the exhaustion case coincides with the
  loop's own exit value, so the embedding computes exactly the loop.
-/

/-- The JS regex class `\s` (as used in `/\s+/g`, `/\s/` and by `trim`). -/
def isJsWs (c : Char) : Bool :=
  c = ' ' || c = '\t' || c = '\n' || c = '\x0b' || c = '\x0c' || c = '\r' ||
  c = ' ' || c = ' ' || (' ' ≤ c && c ≤ ' ') ||
  c = ' ' || c = ' ' || c = ' ' || c = ' ' ||
  c = '　' || c = '﻿'

/-- The punctuation class `[.,!?;:'"()\[\]]` stripped from words in
`findWordInTextNodes` (line 117). -/
def isPunctCls (c : Char) : Bool :=
  c = '.' || c = ',' || c = '!' || c = '?' || c = ';' || c = ':' ||
  c = '\'' || c = '"' || c = '(' || c = ')' || c = '[' || c = ']'

/-- The combined class `[\s.,!?;:'"()\[\]]` used for the word-boundary test
(lines 153-154) and in the end-offset walk (line 185). -/
def wsPunctTest (c : Char) : Bool :=
  isJsWs c || isPunctCls c

/-- `.replace(/[‘’]/g, "'")` as a character map. -/
def replQuote1 (c : Char) : Char :=
  if c = '‘' ∨ c = '’' then '\'' else c

/-- `.replace(/[“”]/g, '"')` as a character map. -/
def replQuote2 (c : Char) : Char :=
  if c = '“' ∨ c = '”' then '"' else c

/-- `.replace(/[–—]/g, '-')` as a character map. -/
def replDash (c : Char) : Char :=
  if c = '–' ∨ c = '—' then '-' else c

/-- `.replace(/→/g, '-')` as a character map. -/
def replArrow (c : Char) : Char :=
  if c = '→' then '-' else c

/-- The four character substitutions of `normalizeText`, composed in
source order. -/
def replChar (c : Char) : Char :=
  replArrow (replDash (replQuote2 (replQuote1 c)))

/-- Model of `String.prototype.toLowerCase` restricted to ASCII, as an
explicit table. -/
def lowerChar (c : Char) : Char :=
  if c = 'A' then 'a' else if c = 'B' then 'b' else if c = 'C' then 'c'
  else if c = 'D' then 'd' else if c = 'E' then 'e' else if c = 'F' then 'f'
  else if c = 'G' then 'g' else if c = 'H' then 'h' else if c = 'I' then 'i'
  else if c = 'J' then 'j' else if c = 'K' then 'k' else if c = 'L' then 'l'
  else if c = 'M' then 'm' else if c = 'N' then 'n' else if c = 'O' then 'o'
  else if c = 'P' then 'p' else if c = 'Q' then 'q' else if c = 'R' then 'r'
  else if c = 'S' then 's' else if c = 'T' then 't' else if c = 'U' then 'u'
  else if c = 'V' then 'v' else if c = 'W' then 'w' else if c = 'X' then 'x'
  else if c = 'Y' then 'y' else if c = 'Z' then 'z' else c

/-- One code unit of `String.prototype.toLowerCase`: the ASCII simple
map, plus the unconditional SpecialCasing expansion of U+0130 (LATIN
CAPITAL LETTER I WITH DOT ABOVE) to U+0069 U+0307 -- the only mapping
through which `toLowerCase` changes a string's length. -/
def lowerJS (c : Char) : List Char :=
  if c = '\u0130' then ['i', '\u0307'] else [lowerChar c]

/-- One character of normalized-lowercased text, for characters whose
lowercasing is one-to-one. -/
def normChar (c : Char) : Char :=
  lowerChar (replChar c)

theorem dropWhileLenLe {α : Type} (p : α → Bool) (l : List α) :
    (l.dropWhile p).length ≤ l.length := by
  induction l with
  | nil => simp
  | cons a l ih =>
    rw [List.dropWhile_cons]
    split
    · exact Nat.le_succ_of_le ih
    · exact Nat.le_refl _

/-- `.replace(/\s+/g, ' ')` (iteration-bounded form): every maximal run of
whitespace becomes a single space. -/
def collapseWsF : Nat → List Char → List Char
  | 0, _ => []
  | _ + 1, [] => []
  | fuel + 1, c :: cs =>
    if isJsWs c then ' ' :: collapseWsF fuel (cs.dropWhile isJsWs)
    else c :: collapseWsF fuel cs

/-- `.replace(/\s+/g, ' ')`. -/
def collapseWs (l : List Char) : List Char :=
  collapseWsF l.length l

theorem collapseWsF_congr (f g : Nat) (l : List Char)
    (hf : l.length ≤ f) (hg : l.length ≤ g) :
    collapseWsF f l = collapseWsF g l := by
  induction f generalizing g l with
  | zero =>
    have : l = [] := List.length_eq_zero.mp (by omega)
    subst this
    cases g <;> rfl
  | succ f ih =>
    cases l with
    | nil => cases g <;> rfl
    | cons c cs =>
      cases g with
      | zero => simp at hg
      | succ g =>
        simp only [collapseWsF]
        simp only [List.length_cons] at hf hg
        by_cases h : isJsWs c
        · rw [if_pos h, if_pos h,
            ih g (cs.dropWhile isJsWs)
              (by have := dropWhileLenLe isJsWs cs; omega)
              (by have := dropWhileLenLe isJsWs cs; omega)]
        · rw [if_neg h, if_neg h, ih g cs (by omega) (by omega)]

theorem collapseWs_nil : collapseWs [] = [] := rfl

theorem collapseWs_cons (c : Char) (cs : List Char) :
    collapseWs (c :: cs) =
      if isJsWs c then ' ' :: collapseWs (cs.dropWhile isJsWs)
      else c :: collapseWs cs := by
  unfold collapseWs
  simp only [List.length_cons, collapseWsF]
  by_cases h : isJsWs c
  · rw [if_pos h, if_pos h,
      collapseWsF_congr _ _ _ (dropWhileLenLe isJsWs cs) (Nat.le_refl _)]
  · rw [if_neg h, if_neg h, collapseWsF_congr _ _ _ (Nat.le_refl _) (Nat.le_refl _)]

/-- `.trim()`: drop whitespace from both ends. -/
def trimWs (l : List Char) : List Char :=
  ((l.dropWhile isJsWs).reverse.dropWhile isJsWs).reverse

/-- `normalizeText` (lines 81-89): the four global character substitutions,
then whitespace collapsing, then trimming, in source order. -/
def normalizeText (s : List Char) : List Char :=
  trimWs (collapseWs ((((s.map replQuote1).map replQuote2).map replDash).map replArrow))

/-- `normalizeText(s).toLowerCase()`, the form in which both the word
(line 116) and the leaf content (line 128) enter every comparison.
Lowercasing may lengthen the string: U+0130 becomes two units. -/
def normLower (s : List Char) : List Char :=
  (normalizeText s).flatMap lowerJS

/-- `extractWords` (lines 94-105), iteration-bounded: the successive matches
of `/\S+/g` together with their character indices. -/
def extractWordsF : Nat → List Char → Nat → List (List Char × Nat)
  | 0, _, _ => []
  | _ + 1, [], _ => []
  | fuel + 1, c :: cs, i =>
    if isJsWs c then extractWordsF fuel cs (i + 1)
    else
      let tok := c :: cs.takeWhile (fun x => !(isJsWs x))
      (tok, i) :: extractWordsF fuel (cs.dropWhile (fun x => !(isJsWs x))) (i + tok.length)

/-- `extractWords` proper. -/
def extractWords (s : List Char) : List (List Char × Nat) :=
  extractWordsF s.length s 0

theorem extractWordsF_congr (f g : Nat) (l : List Char) (i : Nat)
    (hf : l.length ≤ f) (hg : l.length ≤ g) :
    extractWordsF f l i = extractWordsF g l i := by
  induction f generalizing g l i with
  | zero =>
    have : l = [] := List.length_eq_zero.mp (by omega)
    subst this
    cases g <;> rfl
  | succ f ih =>
    cases l with
    | nil => cases g <;> rfl
    | cons c cs =>
      cases g with
      | zero => simp at hg
      | succ g =>
        simp only [extractWordsF]
        simp only [List.length_cons] at hf hg
        by_cases h : isJsWs c
        · rw [if_pos h, if_pos h, ih g cs _ (by omega) (by omega)]
        · rw [if_neg h, if_neg h,
            ih g (cs.dropWhile (fun x => !(isJsWs x))) _
              (by have := dropWhileLenLe (fun x => !(isJsWs x)) cs; omega)
              (by have := dropWhileLenLe (fun x => !(isJsWs x)) cs; omega)]

/-- A DOM element, identified by its tag name and a numeric identity. -/
structure DomElement where
  tag : String
  eid : Nat
deriving DecidableEq, Repr

/-- A collected text leaf: character data, `WeakMap` identity, and the chain
of ancestor elements (immediate parent first).  The core treats these as
non-owning references into a stable tree snapshot. -/
structure TextNode where
  id : Nat
  content : List Char
  ancestors : List DomElement
deriving DecidableEq, Repr

mutual
/-- A DOM subtree: element nodes with children, or text nodes.  (The child
list is represented by the isomorphic `DomForest` so that the tree walker
is structurally recursive.) -/
inductive DomNode where
  | elem (tag : String) (eid : Nat) (children : DomForest)
  | text (content : List Char)
/-- A sequence of sibling DOM nodes. -/
inductive DomForest where
  | nil
  | cons (hd : DomNode) (tl : DomForest)
end

/-- Convenience constructor for forests. -/
def DomForest.ofList : List DomNode → DomForest
  | [] => DomForest.nil
  | n :: rest => DomForest.cons n (DomForest.ofList rest)

/-- The allow-list of "meaningful" container tags (lines 54-60). -/
def meaningfulTags : List String :=
  ["P", "H1", "H2", "H3", "H4", "H5", "H6",
   "DIV", "ARTICLE", "SECTION", "LI", "TD", "TH",
   "BLOCKQUOTE", "PRE", "A", "SPAN", "STRONG",
   "EM", "CODE", "LABEL", "FIGCAPTION", "SUMMARY", "DETAILS",
   "TITLE", "NAV", "HEADER", "FOOTER", "MAIN", "IMG"]

/-- Stands for `document.body` in the final fallback of
`getContainerElement`; never reached for leaves produced by the collector,
which rejects parentless text nodes. -/
def documentBody : DomElement :=
  { tag := "BODY", eid := 0 }

/-- `getContainerElement` (lines 53-76): the first ancestor (immediate
parent first) with a meaningful tag, else the immediate parent, else
`document.body`. -/
def getContainerElement (tn : TextNode) : DomElement :=
  match tn.ancestors.find? (fun e => meaningfulTags.contains e.tag) with
  | some e => e
  | none =>
    match tn.ancestors with
    | p :: _ => p
    | [] => documentBody

/-- The `TreeWalker` of `getTextNodes` (lines 6-32) over a forest, in
document order.  `ancs` is the element chain above the forest (immediate
parent first), `nid` the next `WeakMap` id.  A text node is accepted iff it
has a parent element, the parent's tag is not `SCRIPT`/`STYLE`/`NOSCRIPT`,
and its content does not trim to the empty string. -/
def collectList (ancs : List DomElement) (nid : Nat) :
    DomForest → List TextNode × Nat
  | DomForest.nil => ([], nid)
  | DomForest.cons (DomNode.text content) rest =>
    (match ancs with
    | [] => collectList ancs nid rest
    | parent :: _ =>
      if parent.tag = "SCRIPT" ∨ parent.tag = "STYLE" ∨ parent.tag = "NOSCRIPT" then
        collectList ancs nid rest
      else if trimWs content = [] then
        collectList ancs nid rest
      else
        let out := collectList ancs (nid + 1) rest
        ({ id := nid, content := content, ancestors := ancs } :: out.1, out.2))
  | DomForest.cons (DomNode.elem tag eid children) rest =>
    let inner := collectList ({ tag := tag, eid := eid } :: ancs) nid children
    let outer := collectList ancs inner.2 rest
    (inner.1 ++ outer.1, outer.2)

/-- `getTextNodes(root)`: the accepted text descendants of `root` in
document order (the walker never yields its root, so a text root yields
nothing). -/
def getTextNodes (root : DomNode) : List TextNode :=
  match root with
  | DomNode.text _ => []
  | DomNode.elem tag eid children =>
    (collectList [{ tag := tag, eid := eid }] 0 children).1

/-- The scope argument of `locateSentences` (lines 229-249): whole document
body, a subtree root, or a range.  A `Range` is modelled abstractly by the
element subtree of its `commonAncestorContainer` together with the
`intersectsNode` predicate used as a filter in `getTextNodesInRange`. -/
inductive ScopeOpt where
  | whole
  | rootElem (root : DomNode)
  | range (root : DomNode) (intersects : TextNode → Bool)

/-- The text-node collection step of `locateSentences` (lines 241-249),
including `getTextNodesInRange` (lines 37-48). -/
def collectNodes (body : DomNode) : ScopeOpt → List TextNode
  | ScopeOpt.whole => getTextNodes body
  | ScopeOpt.rootElem r => getTextNodes r
  | ScopeOpt.range r p => (getTextNodes r).filter p

/-- `WordLocation` (types.ts lines 51-57). -/
structure WordLocation where
  word : List Char
  textNode : TextNode
  startOffset : Nat
  endOffset : Nat
  containerElement : DomElement
deriving DecidableEq, Repr

/-- `GPTZeroSentence` (types.ts lines 65-68). -/
structure GPTZeroSentence where
  sentence : List Char
  generated_prob : Rat
deriving DecidableEq, Repr

/-- `SentenceWithLocations` (types.ts lines 59-63). -/
structure SentenceWithLocations where
  sentence : List Char
  generated_prob : Rat
  locations : List WordLocation
deriving DecidableEq, Repr

/-- The per-call normalization cache `Map<Text, string>`, keyed by node
identity. -/
abbrev NodeCache : Type :=
  List (TextNode × List Char)

/-- `Map.get` on the cache. -/
def cacheGet (cache : NodeCache) (tn : TextNode) : Option (List Char) :=
  (cache.find? (fun p => p.1 = tn)).map (fun p => p.2)

/-- `locationKey` (lines 224-227): the key `"<id>:<start>:<end>"`, modelled
by the triple it renders (the rendering is injective on triples). -/
def locKey (l : WordLocation) : Nat × Nat × Nat :=
  (l.textNode.id, l.startOffset, l.endOffset)

/-- `content.indexOf(term, i)`, scanning upward from position `i` over the
remaining characters. -/
def indexOfAux (term : List Char) : List Char → Nat → Option Nat
  | [], i => if term.isPrefixOf ([] : List Char) then some i else none
  | c :: cs, i => if term.isPrefixOf (c :: cs) then some i else indexOfAux term cs (i + 1)

/-- `normalizedContent.indexOf(searchTerm, searchPos)` (line 145). -/
def indexOfFrom (content term : List Char) (start : Nat) : Option Nat :=
  if start ≤ content.length then indexOfAux term (content.drop start) start else none

/-- The scan loop of `findWordInTextNodes` (lines 143-201) restricted to the
positions it discovers (iteration-bounded form): record each found index and
resume the search one character later (line 200). -/
def scanFromF (content term : List Char) : Nat → Nat → List Nat
  | 0, _ => []
  | fuel + 1, searchPos =>
    if searchPos < content.length then
      match indexOfFrom content term searchPos with
      | none => []
      | some i => i :: scanFromF content term fuel (i + 1)
    else []

/-- The positions the scan loop discovers, searching from `searchPos`. -/
def scanFrom (content term : List Char) (searchPos : Nat) : List Nat :=
  scanFromF content term (content.length - searchPos) searchPos

/-- The word-boundary test (lines 148-156): the characters adjacent to the
occurrence (taken as `' '` when the occurrence is flush with either end of
the leaf) must be in the whitespace-or-punctuation class. -/
def boundaryOk (nc t : List Char) (i : Nat) : Bool :=
  let charBefore := if 0 < i then nc.getD (i - 1) ' ' else ' '
  let charAfter := if i + t.length < nc.length then nc.getD (i + t.length) ' ' else ' '
  (wsPunctTest charBefore || i == 0) &&
  (wsPunctTest charAfter || i + t.length == nc.length)

/-- The occurrences of `term` in `nc` that the matcher accepts: all
discovered positions, filtered by the word-boundary test. -/
def acceptedAt (nc t : List Char) : List Nat :=
  (scanFrom nc t 0).filter (boundaryOk nc t)

/-- The inner whitespace-run skip of the start-offset walk (lines 168-172),
expressed on the characters following the current position: advance while
the next character exists and is whitespace. -/
def skipWsGo : List Char → Nat → Nat
  | [], p => p
  | next :: rest, p => if isJsWs next then skipWsGo rest (p + 1) else p

/-- `skipWsRun o p`: the inner `while` loop of lines 168-172 started at
position `p` (the bound `origPos < length - 1` of the source coincides with
running out of following characters). -/
def skipWsRun (o : List Char) (p : Nat) : Nat :=
  skipWsGo (o.drop (p + 1)) p

/-- The start-offset walk (lines 159-175), iteration-bounded: map the
normalized-text index `fi` back to an original-string index, collapsing each
whitespace run to a single normalized position. -/
def startWalkF (o : List Char) (fi : Nat) : Nat → Nat → Nat → Option Nat
  | 0, _, _ => none
  | fuel + 1, origPos, normPos =>
    if origPos < o.length ∧ normPos ≤ fi then
      if normPos = fi then some origPos
      else
        let origPos' := if isJsWs (o.getD origPos ' ') then skipWsRun o origPos else origPos
        startWalkF o fi fuel (origPos' + 1) (normPos + 1)
    else none

/-- The start-offset walk from a given state. -/
def startWalk (o : List Char) (fi origPos normPos : Nat) : Option Nat :=
  startWalkF o fi (o.length - origPos) origPos normPos

/-- Lines 159-179: the walk, with the `-1` fallback replaced by the found
index itself (line 178). -/
def actualStartOf (o : List Char) (fi : Nat) : Nat :=
  (startWalk o fi 0 0).getD fi

/-- The end-offset walk (lines 181-189), iteration-bounded: from the
resolved start, consume original characters until `tlen` characters outside
the punctuation/whitespace class have been counted. -/
def endWalkF (o : List Char) (tlen : Nat) : Nat → Nat → Nat → Nat
  | 0, p, _ => p
  | fuel + 1, p, m =>
    if p < o.length ∧ m < tlen then
      endWalkF o tlen fuel (p + 1)
        (if wsPunctTest (lowerChar (o.getD p ' ')) then m else m + 1)
    else p

/-- The end-offset walk from a given state. -/
def endWalk (o : List Char) (tlen p m : Nat) : Nat :=
  endWalkF o tlen (o.length - p) p m

/-- Building one `WordLocation` (lines 157-197) from an accepted occurrence
of `t` at normalized index `fi` in the leaf `tn`. -/
def mkLoc (tn : TextNode) (word t : List Char) (fi : Nat) : WordLocation :=
  let o := tn.content
  let s := actualStartOf o fi
  { word := word
    textNode := tn
    startOffset := max 0 s
    endOffset := min (endWalk o t.length s 0) o.length
    containerElement := getContainerElement tn }

/-- `strippedWord` (line 117). -/
def strippedOf (w : List Char) : List Char :=
  (normLower w).filter (fun c => !(isPunctCls c))

/-- `noHyphenWord` (line 123). -/
def noHyphenOf (s : List Char) : List Char :=
  s.filter (fun c => !(c = '-'))

/-- `searchTerms` (lines 132-135): the stripped word, then the hyphen-free
variant when it differs and is nonempty. -/
def searchTermsOf (st nh : List Char) : List (List Char) :=
  st :: (if st ≠ nh ∧ 0 < nh.length then [nh] else [])

/-- All `WordLocation`s the matcher produces within one leaf whose
normalized content is `nc` (lines 132-202); empty search terms are skipped
(line 139). -/
def wordLocsInLeaf (tn : TextNode) (word st nh nc : List Char) : List WordLocation :=
  (searchTermsOf st nh).flatMap
    (fun t => if t.length = 0 then [] else (acceptedAt nc t).map (mkLoc tn word t))

/-- The leaf loop of `findWordInTextNodes` (lines 125-203), threading the
normalization cache. -/
def findWordLoop (word st nh : List Char) :
    List TextNode → NodeCache → List WordLocation × NodeCache
  | [], cache => ([], cache)
  | tn :: rest, cache =>
    let ncp : List Char × NodeCache :=
      match cacheGet cache tn with
      | some v => (v, cache)
      | none => (normLower tn.content, (tn, normLower tn.content) :: cache)
    let here := wordLocsInLeaf tn word st nh ncp.1
    let out := findWordLoop word st nh rest ncp.2
    (here ++ out.1, out.2)

/-- `findWordInTextNodes` (lines 110-206). -/
def findWordInTextNodes (textNodes : List TextNode) (word : List Char)
    (cache : NodeCache) : List WordLocation × NodeCache :=
  let strippedWord := strippedOf word
  if strippedWord.length = 0 then ([], cache)
  else findWordLoop word strippedWord (noHyphenOf strippedWord) textNodes cache

/-- The matcher's output alone, starting from an empty cache (the cache is
call-scoped and, as proved below, does not influence the output). -/
def findWordPure (textNodes : List TextNode) (word : List Char) : List WordLocation :=
  (findWordInTextNodes textNodes word []).1

/-- The word loop of `locateSentences` (lines 261-275): for each word, take
the first candidate whose location key is not yet used, record its key and
append it. -/
def locateWordsAux (textNodes : List TextNode) :
    List (List Char × Nat) → NodeCache → List (Nat × Nat × Nat) →
    List WordLocation × NodeCache × List (Nat × Nat × Nat)
  | [], cache, used => ([], cache, used)
  | (w, _) :: ws, cache, used =>
    let found := findWordInTextNodes textNodes w cache
    match found.1.find? (fun m => !(used.contains (locKey m))) with
    | some m =>
      let out := locateWordsAux textNodes ws found.2 (locKey m :: used)
      (m :: out.1, out.2.1, out.2.2)
    | none => locateWordsAux textNodes ws found.2 used

/-- The sentence loop of `locateSentences` (lines 256-282). -/
def locateSentencesAux (textNodes : List TextNode) :
    List GPTZeroSentence → NodeCache → List (Nat × Nat × Nat) →
    List SentenceWithLocations
  | [], _, _ => []
  | s :: ss, cache, used =>
    let out := locateWordsAux textNodes (extractWords s.sentence) cache used
    { sentence := s.sentence, generated_prob := s.generated_prob, locations := out.1 }
      :: locateSentencesAux textNodes ss out.2.1 out.2.2

/-- `locateSentences` (lines 240-285): collect the text nodes for the
requested scope, then run the sentence loop with a fresh cache and a fresh
claim set. -/
def locateSentences (body : DomNode) (sentences : List GPTZeroSentence)
    (opts : ScopeOpt) : List SentenceWithLocations :=
  locateSentencesAux (collectNodes body opts) sentences [] []

/-- All locations of a result list, in commitment order. -/
def flatLocs (rs : List SentenceWithLocations) : List WordLocation :=
  rs.flatMap (fun r => r.locations)

/-! ## Basic list helpers -/

theorem getDDrop {α : Type} (l : List α) (k r : Nat) (d : α) :
    (l.drop k).getD r d = l.getD (k + r) d := by
  induction k generalizing l with
  | zero => simp
  | succ k ih =>
    cases l with
    | nil => simp
    | cons a l => simpa [Nat.succ_add] using ih l

theorem prefixLen {α : Type} [BEq α] [LawfulBEq α] {t c : List α}
    (h : t.isPrefixOf c = true) : t.length ≤ c.length := by
  induction t generalizing c with
  | nil => simp
  | cons a t ih =>
    cases c with
    | nil => simp [List.isPrefixOf] at h
    | cons b c =>
      simp only [List.isPrefixOf, Bool.and_eq_true] at h
      simpa using ih h.2

theorem prefixGetD {t c : List Char} (h : t.isPrefixOf c = true)
    (r : Nat) (hr : r < t.length) : c.getD r ' ' = t.getD r ' ' := by
  induction t generalizing c r with
  | nil => simp at hr
  | cons a t ih =>
    cases c with
    | nil => simp [List.isPrefixOf] at h
    | cons b c =>
      simp only [List.isPrefixOf, Bool.and_eq_true, beq_iff_eq] at h
      cases r with
      | zero => simp [h.1]
      | succ r =>
        simp only [List.getD_cons_succ]
        exact ih h.2 r (by simpa using hr)

/-! ## Facts about the substring scan -/

theorem indexOfAux_some {term rest : List Char} {i j : Nat}
    (h : indexOfAux term rest i = some j) :
    i ≤ j ∧ j - i ≤ rest.length ∧ term.isPrefixOf (rest.drop (j - i)) = true := by
  induction rest generalizing i with
  | nil =>
    unfold indexOfAux at h
    split at h
    · simp at h
      subst h
      refine ⟨Nat.le_refl _, by simp, ?_⟩
      simpa using (by assumption : term.isPrefixOf ([] : List Char) = true)
    · simp at h
  | cons c cs ih =>
    unfold indexOfAux at h
    split at h
    · simp at h
      subst h
      simpa using (by assumption : term.isPrefixOf (c :: cs) = true)
    · obtain ⟨h1, h2, h3⟩ := ih h
      refine ⟨by omega, by simp; omega, ?_⟩
      have : j - i = (j - (i + 1)) + 1 := by omega
      rw [this, List.drop_succ_cons]
      exact h3

theorem indexOfFrom_ge {content term : List Char} {start i : Nat}
    (h : indexOfFrom content term start = some i) : start ≤ i := by
  unfold indexOfFrom at h
  split at h
  · exact (indexOfAux_some h).1
  · simp at h

theorem indexOfFrom_occurs {content term : List Char} {start i : Nat}
    (h : indexOfFrom content term start = some i) :
    term.isPrefixOf (content.drop i) = true := by
  unfold indexOfFrom at h
  split at h
  · obtain ⟨h1, h2, h3⟩ := indexOfAux_some h
    rw [List.drop_drop] at h3
    rwa [show start + (i - start) = i by omega] at h3
  · simp at h

theorem indexOfFrom_lt {content term : List Char} {start i : Nat}
    (hs : start < content.length) (h : indexOfFrom content term start = some i) :
    i < content.length := by
  cases ht : term with
  | nil =>
    unfold indexOfFrom at h
    rw [if_pos (by omega)] at h
    cases hd : content.drop start with
    | nil =>
      rw [ht, hd] at h
      unfold indexOfAux at h
      simp [List.isPrefixOf] at h
      omega
    | cons c cs =>
      rw [ht, hd] at h
      unfold indexOfAux at h
      simp [List.isPrefixOf] at h
      omega
  | cons t0 ts =>
    have hocc := indexOfFrom_occurs h
    have hlen := prefixLen hocc
    rw [List.length_drop, ht] at hlen
    simp at hlen
    omega

theorem scanFromF_mem (content term : List Char) (fuel : Nat) :
    ∀ s, ∀ i ∈ scanFromF content term fuel s,
      s ≤ i ∧ i < content.length ∧ term.isPrefixOf (content.drop i) = true := by
  induction fuel with
  | zero => intro s i hi; simp [scanFromF] at hi
  | succ fuel ih =>
    intro s i hi
    unfold scanFromF at hi
    split at hi
    · rename_i hs
      cases hf : indexOfFrom content term s with
      | none => rw [hf] at hi; simp at hi
      | some j =>
        rw [hf] at hi
        rcases List.mem_cons.mp hi with h | h
        · subst h
          exact ⟨indexOfFrom_ge hf, indexOfFrom_lt hs hf, indexOfFrom_occurs hf⟩
        · have h2 := ih (j + 1) i h
          have := indexOfFrom_ge hf
          exact ⟨by omega, h2.2⟩
    · simp at hi

theorem scanFromF_sorted (content term : List Char) (fuel : Nat) :
    ∀ s, (scanFromF content term fuel s).Pairwise (fun i j => i < j) := by
  induction fuel with
  | zero => intro s; simp [scanFromF]
  | succ fuel ih =>
    intro s
    unfold scanFromF
    split
    · cases hf : indexOfFrom content term s with
      | none => exact List.Pairwise.nil
      | some j =>
        refine List.pairwise_cons.mpr ⟨?_, ih (j + 1)⟩
        intro b hb
        have := (scanFromF_mem content term fuel (j + 1) b hb).1
        omega
    · exact List.Pairwise.nil

theorem scanFrom_mem {content term : List Char} {s i : Nat}
    (hi : i ∈ scanFrom content term s) :
    s ≤ i ∧ i < content.length ∧ term.isPrefixOf (content.drop i) = true :=
  scanFromF_mem content term _ s i hi

theorem scanFrom_sorted (content term : List Char) (s : Nat) :
    (scanFrom content term s).Pairwise (fun i j => i < j) :=
  scanFromF_sorted content term _ s

/-- Characters of an occurrence: if `term` occurs at `i` then the content
agrees with `term` on the occupied positions. -/
theorem occursChar {content term : List Char} {i : Nat}
    (h : term.isPrefixOf (content.drop i) = true) (r : Nat) (hr : r < term.length) :
    content.getD (i + r) ' ' = term.getD r ' ' := by
  rw [← getDDrop]
  exact prefixGetD h r hr

theorem occursLen {content term : List Char} {i : Nat}
    (h : term.isPrefixOf (content.drop i) = true) :
    term.length ≤ content.length - i := by
  have := prefixLen h
  rw [List.length_drop] at this
  omega

theorem acceptedAt_mem {nc t : List Char} {i : Nat} (hi : i ∈ acceptedAt nc t) :
    i < nc.length ∧ t.isPrefixOf (nc.drop i) = true ∧ boundaryOk nc t i = true := by
  have h1 := scanFrom_mem (List.mem_of_mem_filter hi)
  exact ⟨h1.2.1, h1.2.2, List.of_mem_filter hi⟩

/-! ## The word-boundary condition -/

theorem acceptedAt_boundary {nc t : List Char} {i : Nat}
    (hi : i ∈ acceptedAt nc t) :
    (i = 0 ∨ wsPunctTest (nc.getD (i - 1) ' ') = true) ∧
    (i + t.length = nc.length ∨ wsPunctTest (nc.getD (i + t.length) ' ') = true) := by
  obtain ⟨hlt, hocc, hb⟩ := acceptedAt_mem hi
  unfold boundaryOk at hb
  simp only [Bool.and_eq_true, Bool.or_eq_true, beq_iff_eq] at hb
  have hlen : i + t.length ≤ nc.length := by
    have := occursLen hocc
    omega
  constructor
  · rcases hb.1 with h | h
    · by_cases h0 : 0 < i
      · right; simpa [if_pos h0] using h
      · left; omega
    · left; exact h
  · rcases hb.2 with h | h
    · by_cases hend : i + t.length < nc.length
      · right; simpa [if_pos hend] using h
      · left; omega
    · left; exact h

/-! ## Character-class facts -/

theorem isJsWs_replQuote1 (c : Char) : isJsWs (replQuote1 c) = isJsWs c := by
  unfold replQuote1
  split
  · rename_i h; rcases h with h | h <;> subst h <;> decide
  · rfl

theorem isJsWs_replQuote2 (c : Char) : isJsWs (replQuote2 c) = isJsWs c := by
  unfold replQuote2
  split
  · rename_i h; rcases h with h | h <;> subst h <;> decide
  · rfl

theorem isJsWs_replDash (c : Char) : isJsWs (replDash c) = isJsWs c := by
  unfold replDash
  split
  · rename_i h; rcases h with h | h <;> subst h <;> decide
  · rfl

theorem isJsWs_replArrow (c : Char) : isJsWs (replArrow c) = isJsWs c := by
  unfold replArrow
  split
  · rename_i h; subst h; decide
  · rfl

theorem isJsWs_replChar (c : Char) : isJsWs (replChar c) = isJsWs c := by
  unfold replChar
  rw [isJsWs_replArrow, isJsWs_replDash, isJsWs_replQuote2, isJsWs_replQuote1]

theorem lowerChar_eq_self (c : Char) (hA : ¬ c = 'A') (hB : ¬ c = 'B') (hC : ¬ c = 'C') (hD : ¬ c = 'D') (hE : ¬ c = 'E') (hF : ¬ c = 'F') (hG : ¬ c = 'G') (hH : ¬ c = 'H') (hI : ¬ c = 'I') (hJ : ¬ c = 'J') (hK : ¬ c = 'K') (hL : ¬ c = 'L') (hM : ¬ c = 'M') (hN : ¬ c = 'N') (hO : ¬ c = 'O') (hP : ¬ c = 'P') (hQ : ¬ c = 'Q') (hR : ¬ c = 'R') (hS : ¬ c = 'S') (hT : ¬ c = 'T') (hU : ¬ c = 'U') (hV : ¬ c = 'V') (hW : ¬ c = 'W') (hX : ¬ c = 'X') (hY : ¬ c = 'Y') (hZ : ¬ c = 'Z') :
    lowerChar c = c := by
  unfold lowerChar
  rw [if_neg hA, if_neg hB, if_neg hC, if_neg hD, if_neg hE, if_neg hF, if_neg hG, if_neg hH, if_neg hI, if_neg hJ, if_neg hK, if_neg hL, if_neg hM, if_neg hN, if_neg hO, if_neg hP, if_neg hQ, if_neg hR, if_neg hS, if_neg hT, if_neg hU, if_neg hV, if_neg hW, if_neg hX, if_neg hY, if_neg hZ]

theorem isJsWs_lowerChar (c : Char) : isJsWs (lowerChar c) = isJsWs c := by
  by_cases hA : c = 'A'
  · subst hA; decide
  by_cases hB : c = 'B'
  · subst hB; decide
  by_cases hC : c = 'C'
  · subst hC; decide
  by_cases hD : c = 'D'
  · subst hD; decide
  by_cases hE : c = 'E'
  · subst hE; decide
  by_cases hF : c = 'F'
  · subst hF; decide
  by_cases hG : c = 'G'
  · subst hG; decide
  by_cases hH : c = 'H'
  · subst hH; decide
  by_cases hI : c = 'I'
  · subst hI; decide
  by_cases hJ : c = 'J'
  · subst hJ; decide
  by_cases hK : c = 'K'
  · subst hK; decide
  by_cases hL : c = 'L'
  · subst hL; decide
  by_cases hM : c = 'M'
  · subst hM; decide
  by_cases hN : c = 'N'
  · subst hN; decide
  by_cases hO : c = 'O'
  · subst hO; decide
  by_cases hP : c = 'P'
  · subst hP; decide
  by_cases hQ : c = 'Q'
  · subst hQ; decide
  by_cases hR : c = 'R'
  · subst hR; decide
  by_cases hS : c = 'S'
  · subst hS; decide
  by_cases hT : c = 'T'
  · subst hT; decide
  by_cases hU : c = 'U'
  · subst hU; decide
  by_cases hV : c = 'V'
  · subst hV; decide
  by_cases hW : c = 'W'
  · subst hW; decide
  by_cases hX : c = 'X'
  · subst hX; decide
  by_cases hY : c = 'Y'
  · subst hY; decide
  by_cases hZ : c = 'Z'
  · subst hZ; decide
  rw [lowerChar_eq_self c hA hB hC hD hE hF hG hH hI hJ hK hL hM hN hO hP hQ hR hS hT hU hV hW hX hY hZ]

theorem isPunctCls_lowerChar (c : Char) : isPunctCls (lowerChar c) = isPunctCls c := by
  by_cases hA : c = 'A'
  · subst hA; decide
  by_cases hB : c = 'B'
  · subst hB; decide
  by_cases hC : c = 'C'
  · subst hC; decide
  by_cases hD : c = 'D'
  · subst hD; decide
  by_cases hE : c = 'E'
  · subst hE; decide
  by_cases hF : c = 'F'
  · subst hF; decide
  by_cases hG : c = 'G'
  · subst hG; decide
  by_cases hH : c = 'H'
  · subst hH; decide
  by_cases hI : c = 'I'
  · subst hI; decide
  by_cases hJ : c = 'J'
  · subst hJ; decide
  by_cases hK : c = 'K'
  · subst hK; decide
  by_cases hL : c = 'L'
  · subst hL; decide
  by_cases hM : c = 'M'
  · subst hM; decide
  by_cases hN : c = 'N'
  · subst hN; decide
  by_cases hO : c = 'O'
  · subst hO; decide
  by_cases hP : c = 'P'
  · subst hP; decide
  by_cases hQ : c = 'Q'
  · subst hQ; decide
  by_cases hR : c = 'R'
  · subst hR; decide
  by_cases hS : c = 'S'
  · subst hS; decide
  by_cases hT : c = 'T'
  · subst hT; decide
  by_cases hU : c = 'U'
  · subst hU; decide
  by_cases hV : c = 'V'
  · subst hV; decide
  by_cases hW : c = 'W'
  · subst hW; decide
  by_cases hX : c = 'X'
  · subst hX; decide
  by_cases hY : c = 'Y'
  · subst hY; decide
  by_cases hZ : c = 'Z'
  · subst hZ; decide
  rw [lowerChar_eq_self c hA hB hC hD hE hF hG hH hI hJ hK hL hM hN hO hP hQ hR hS hT hU hV hW hX hY hZ]

theorem isJsWs_normChar (c : Char) : isJsWs (normChar c) = isJsWs c := by
  unfold normChar
  rw [isJsWs_lowerChar, isJsWs_replChar]

theorem wsPunctTest_lowerChar (c : Char) : wsPunctTest (lowerChar c) = wsPunctTest c := by
  unfold wsPunctTest
  rw [isJsWs_lowerChar, isPunctCls_lowerChar]

theorem wsPunctTest_normChar_ws {c : Char} (h : isJsWs c = true) :
    wsPunctTest (normChar c) = true := by
  unfold wsPunctTest
  rw [isJsWs_normChar, h]
  rfl

theorem replChar_punct_id {c : Char} (h : isPunctCls c = true) : replChar c = c := by
  unfold isPunctCls at h
  simp only [Bool.or_eq_true, decide_eq_true_eq] at h
  rcases h with (((((((((((h|h)|h)|h)|h)|h)|h)|h)|h)|h)|h)|h) <;> subst h <;> decide

theorem countable_of_unstripped {c : Char} (h : wsPunctTest (normChar c) = false) :
    wsPunctTest (lowerChar c) = false := by
  by_contra hcon
  have hl : wsPunctTest (lowerChar c) = true := by
    cases hx : wsPunctTest (lowerChar c)
    · exact absurd hx hcon
    · rfl
  rw [wsPunctTest_lowerChar] at hl
  unfold wsPunctTest at hl
  rcases Bool.or_eq_true_iff.mp hl with hw | hp
  · rw [wsPunctTest_normChar_ws hw] at h
    simp at h
  · have hrc : replChar c = c := replChar_punct_id hp
    have : normChar c = lowerChar c := by unfold normChar; rw [hrc]
    rw [this, wsPunctTest_lowerChar] at h
    unfold wsPunctTest at h
    rw [hp] at h
    simp at h

theorem normChar_space : normChar ' ' = ' ' := by decide

/-! ## Structure of whitespace collapsing and trimming -/

theorem filterNot_dropWhile {α : Type} (p : α → Bool) (l : List α) :
    (l.dropWhile p).filter (fun c => !(p c)) = l.filter (fun c => !(p c)) := by
  induction l with
  | nil => rfl
  | cons a l ih =>
    rw [List.dropWhile_cons]
    by_cases h : p a
    · rw [if_pos h, ih, List.filter_cons]
      simp [h]
    · rw [if_neg h]

theorem filterNotWs_collapse (l : List Char) :
    (collapseWs l).filter (fun c => !(isJsWs c)) = l.filter (fun c => !(isJsWs c)) := by
  cases l with
  | nil => rw [collapseWs_nil]
  | cons c cs =>
    rw [collapseWs_cons]
    by_cases h : isJsWs c
    · rw [if_pos h, List.filter_cons, List.filter_cons]
      simp only [h, Bool.not_true, Bool.false_eq_true, if_neg, reduceIte]
      rw [filterNotWs_collapse (cs.dropWhile isJsWs)]
      exact filterNot_dropWhile isJsWs cs
    · rw [if_neg h, List.filter_cons, List.filter_cons]
      simp only [h, Bool.not_false, if_pos]
      rw [filterNotWs_collapse cs]
termination_by l.length
decreasing_by
· simp only [List.length_cons]
  exact Nat.lt_succ_of_le (dropWhileLenLe _ _)
· simp only [List.length_cons]
  exact Nat.lt_succ_of_le (Nat.le_refl _)

theorem filterNotWs_trim (l : List Char) :
    (trimWs l).filter (fun c => !(isJsWs c)) = l.filter (fun c => !(isJsWs c)) := by
  unfold trimWs
  rw [List.filter_reverse, filterNot_dropWhile, List.filter_reverse,
    List.reverse_reverse, filterNot_dropWhile]

theorem collapse_map (f : Char → Char) (hws : ∀ c, isJsWs (f c) = isJsWs c)
    (hsp : f ' ' = ' ') (l : List Char) :
    collapseWs (l.map f) = (collapseWs l).map f := by
  cases l with
  | nil => simp [collapseWs_nil]
  | cons c cs =>
    rw [List.map_cons, collapseWs_cons, collapseWs_cons]
    have hfc : isJsWs (f c) = isJsWs c := hws c
    by_cases h : isJsWs c
    · rw [if_pos (by rw [hfc]; exact h), if_pos h]
      rw [List.dropWhile_map]
      have hpf : isJsWs ∘ f = isJsWs := by funext b; exact hws b
      rw [hpf]
      rw [collapse_map f hws hsp (cs.dropWhile isJsWs)]
      simp [hsp]
    · rw [if_neg (by rw [hfc]; exact h), if_neg h]
      rw [collapse_map f hws hsp cs]
      simp
termination_by l.length
decreasing_by
· simp only [List.length_cons]
  exact Nat.lt_succ_of_le (dropWhileLenLe _ _)
· simp only [List.length_cons]
  exact Nat.lt_succ_of_le (Nat.le_refl _)

/-! ## More list helpers -/

theorem getDOut {α : Type} (l : List α) (n : Nat) (d : α) (h : l.length ≤ n) :
    l.getD n d = d := by
  unfold List.getD
  rw [List.get?_eq_none.mpr h]
  rfl

theorem getDIn (l : List Char) (n : Nat) (h : n < l.length) :
    l.getD n ' ' = l[n] := List.getD_eq_getElem l ' ' h

theorem dropWhileEqDrop {α : Type} (p : α → Bool) (l : List α) :
    l.dropWhile p = l.drop (l.takeWhile p).length := by
  induction l with
  | nil => rfl
  | cons a l ih =>
    rw [List.dropWhile_cons, List.takeWhile_cons]
    by_cases h : p a
    · simp only [h, if_pos]; rw [ih]; simp
    · simp [h]

theorem takeWhileLenLe {α : Type} (p : α → Bool) (l : List α) :
    (l.takeWhile p).length ≤ l.length := by
  induction l with
  | nil => simp
  | cons a l ih =>
    rw [List.takeWhile_cons]
    by_cases h : p a
    · simp only [h, if_pos, List.length_cons]
      omega
    · simp [h]

theorem takeWhileAll {α : Type} (p : α → Bool) (l : List α) :
    ∀ c ∈ l.takeWhile p, p c = true := by
  intro c hc
  induction l with
  | nil => simp at hc
  | cons a l ih =>
    rw [List.takeWhile_cons] at hc
    by_cases h : p a
    · rw [if_pos h] at hc
      rcases List.mem_cons.mp hc with h1 | h1
      · subst h1; exact h
      · exact ih h1
    · rw [if_neg h] at hc; simp at hc

theorem dropWhileHeadFalse {α : Type} (p : α → Bool) (l : List α) (d : α) (ds : List α)
    (h : l.dropWhile p = d :: ds) : p d = false := by
  induction l with
  | nil => simp at h
  | cons a l ih =>
    rw [List.dropWhile_cons] at h
    by_cases hp : p a
    · rw [if_pos hp] at h; exact ih h
    · rw [if_neg hp] at h
      cases h
      cases hx : p d
      · rfl
      · exact absurd hx hp

theorem takeWhile_cons_of_pos {α : Type} {p : α → Bool} {a : α} (l : List α)
    (h : p a = true) : (a :: l).takeWhile p = a :: l.takeWhile p := by
  rw [List.takeWhile_cons, if_pos h]

/-! ## The whitespace-skip loop and walk unfolding equations -/

theorem skipWsGo_eq (l : List Char) (p : Nat) :
    skipWsGo l p = p + (l.takeWhile isJsWs).length := by
  induction l generalizing p with
  | nil => simp [skipWsGo]
  | cons c cs ih =>
    unfold skipWsGo
    by_cases h : isJsWs c
    · rw [if_pos h, ih, takeWhile_cons_of_pos cs h]
      simp
      omega
    · rw [if_neg h, List.takeWhile_cons, if_neg h]
      simp

/-- The length of the whitespace run starting at position `p`. -/
def wsRunLen (o : List Char) (p : Nat) : Nat :=
  ((o.drop p).takeWhile isJsWs).length

theorem skipWsRun_eq (o : List Char) (p : Nat) :
    skipWsRun o p = p + wsRunLen o (p + 1) := by
  unfold skipWsRun wsRunLen
  exact skipWsGo_eq _ _

theorem skipWsRun_ge (o : List Char) (p : Nat) : p ≤ skipWsRun o p := by
  rw [skipWsRun_eq]
  omega

theorem startWalkF_congr (o : List Char) (fi : Nat) (f g : Nat) :
    ∀ p n, o.length - p ≤ f → o.length - p ≤ g →
    startWalkF o fi f p n = startWalkF o fi g p n := by
  induction f generalizing g with
  | zero =>
    intro p n hf hg
    cases g with
    | zero => rfl
    | succ g =>
      unfold startWalkF
      rw [if_neg (by omega)]
  | succ f ih =>
    intro p n hf hg
    cases g with
    | zero =>
      unfold startWalkF
      rw [if_neg (by omega)]
    | succ g =>
      unfold startWalkF
      by_cases h : p < o.length ∧ n ≤ fi
      · rw [if_pos h, if_pos h]
        by_cases he : n = fi
        · rw [if_pos he, if_pos he]
        · rw [if_neg he, if_neg he]
          have hs := skipWsRun_ge o p
          by_cases hw : isJsWs (o.getD p ' ')
          · simp only [hw, if_pos]
            exact ih g _ _ (by omega) (by omega)
          · simp only [hw, Bool.false_eq_true, if_neg, reduceIte]
            exact ih g _ _ (by omega) (by omega)
      · rw [if_neg h, if_neg h]

theorem startWalk_eq (o : List Char) (fi p n : Nat) :
    startWalk o fi p n =
      if p < o.length ∧ n ≤ fi then
        if n = fi then some p
        else
          startWalk o fi
            ((if isJsWs (o.getD p ' ') then skipWsRun o p else p) + 1) (n + 1)
      else none := by
  conv_lhs => unfold startWalk
  cases hf : o.length - p with
  | zero =>
    unfold startWalkF
    rw [if_neg (by omega)]
  | succ f =>
    unfold startWalkF
    by_cases h : p < o.length ∧ n ≤ fi
    · rw [if_pos h, if_pos h]
      by_cases he : n = fi
      · rw [if_pos he, if_pos he]
      · rw [if_neg he, if_neg he]
        have hs := skipWsRun_ge o p
        unfold startWalk
        by_cases hw : isJsWs (o.getD p ' ')
        · simp only [hw, if_pos]
          exact startWalkF_congr o fi f (o.length - (skipWsRun o p + 1))
            (skipWsRun o p + 1) (n + 1) (by omega) (by omega)
        · simp only [hw, Bool.false_eq_true, if_neg, reduceIte]
          exact startWalkF_congr o fi f (o.length - (p + 1))
            (p + 1) (n + 1) (by omega) (by omega)
    · rw [if_neg h, if_neg h]

theorem endWalkF_congr (o : List Char) (tlen : Nat) (f g : Nat) :
    ∀ p m, o.length - p ≤ f → o.length - p ≤ g →
    endWalkF o tlen f p m = endWalkF o tlen g p m := by
  induction f generalizing g with
  | zero =>
    intro p m hf hg
    cases g with
    | zero => rfl
    | succ g =>
      unfold endWalkF
      rw [if_neg (by omega)]
  | succ f ih =>
    intro p m hf hg
    cases g with
    | zero =>
      unfold endWalkF
      rw [if_neg (by omega)]
    | succ g =>
      unfold endWalkF
      by_cases h : p < o.length ∧ m < tlen
      · rw [if_pos h, if_pos h]
        exact ih g _ _ (by omega) (by omega)
      · rw [if_neg h, if_neg h]

theorem endWalk_eq (o : List Char) (tlen p m : Nat) :
    endWalk o tlen p m =
      if p < o.length ∧ m < tlen then
        endWalk o tlen (p + 1)
          (if wsPunctTest (lowerChar (o.getD p ' ')) then m else m + 1)
      else p := by
  conv_lhs => unfold endWalk
  cases hf : o.length - p with
  | zero =>
    unfold endWalkF
    rw [if_neg (by omega)]
  | succ f =>
    unfold endWalkF
    by_cases h : p < o.length ∧ m < tlen
    · rw [if_pos h, if_pos h]
      unfold endWalk
      exact endWalkF_congr o tlen f (o.length - (p + 1)) (p + 1)
        (if wsPunctTest (lowerChar (o.getD p ' ')) then m else m + 1)
        (by omega) (by omega)
    · rw [if_neg h, if_neg h]

theorem endWalkF_ge (o : List Char) (tlen : Nat) (fuel : Nat) :
    ∀ p m, p ≤ endWalkF o tlen fuel p m := by
  induction fuel with
  | zero => intro p m; simp [endWalkF]
  | succ fuel ih =>
    intro p m
    unfold endWalkF
    split
    · have := ih (p + 1) (if wsPunctTest (lowerChar (o.getD p ' ')) then m else m + 1)
      omega
    · exact Nat.le_refl _

theorem endWalk_ge (o : List Char) (tlen p m : Nat) : p ≤ endWalk o tlen p m :=
  endWalkF_ge o tlen _ p m

/-! ## Unit decomposition of the original text

The start-offset walk advances one "unit" of the original string per
normalized position: a maximal whitespace run is one unit, any other
character is a unit by itself.  `unitStart o j` is the original index at
which the `j`-th unit begins. -/

/-- The size of the unit beginning at original position `p`. -/
def unitSize (o : List Char) (p : Nat) : Nat :=
  if isJsWs (o.getD p ' ') then wsRunLen o p else 1

/-- The original index of the start of unit `j`. -/
def unitStart (o : List Char) : Nat → Nat
  | 0 => 0
  | j + 1 => unitStart o j + unitSize o (unitStart o j)

theorem wsRunLen_pos (o : List Char) (p : Nat) (hp : p < o.length)
    (hw : isJsWs (o.getD p ' ') = true) : 0 < wsRunLen o p := by
  unfold wsRunLen
  rw [List.drop_eq_getElem_cons hp, ← getDIn o p hp, takeWhile_cons_of_pos _ hw]
  simp

theorem unitSize_pos (o : List Char) (p : Nat) (hp : p < o.length) :
    0 < unitSize o p := by
  unfold unitSize
  by_cases hw : isJsWs (o.getD p ' ')
  · rw [if_pos hw]; exact wsRunLen_pos o p hp hw
  · rw [if_neg hw]; omega

theorem wsRunLen_le (o : List Char) (p : Nat) : wsRunLen o p ≤ o.length - p := by
  unfold wsRunLen
  have := takeWhileLenLe isJsWs (o.drop p)
  simp at this
  omega

theorem unitStart_le_len (o : List Char) (j : Nat) : unitStart o j ≤ o.length := by
  induction j with
  | zero => simp [unitStart]
  | succ j ih =>
    unfold unitStart
    by_cases h : unitStart o j < o.length
    · unfold unitSize
      by_cases hw : isJsWs (o.getD (unitStart o j) ' ')
      · rw [if_pos hw]
        have := wsRunLen_le o (unitStart o j)
        omega
      · rw [if_neg hw]
        omega
    · have hlen : unitStart o j = o.length := by omega
      unfold unitSize
      rw [hlen, getDOut o o.length ' ' (Nat.le_refl _)]
      rw [if_pos (by decide)]
      unfold wsRunLen
      rw [List.drop_length]
      simp

theorem unitStart_mono (o : List Char) {i j : Nat} (h : i ≤ j) :
    unitStart o i ≤ unitStart o j := by
  induction j with
  | zero => simp at h; subst h; exact Nat.le_refl _
  | succ j ih =>
    by_cases he : i = j + 1
    · subst he; exact Nat.le_refl _
    · have h1 : i ≤ j := by omega
      have h2 := ih h1
      have h3 : unitStart o (j + 1) = unitStart o j + unitSize o (unitStart o j) := rfl
      omega

theorem wsRunLen_shift (o : List Char) (k p : Nat) :
    wsRunLen o (k + p) = wsRunLen (o.drop k) p := by
  unfold wsRunLen
  rw [List.drop_drop]

theorem getD_drop_shift (o : List Char) (k p : Nat) :
    (o.drop k).getD p ' ' = o.getD (k + p) ' ' := getDDrop o k p ' '

theorem unitSize_shift (o : List Char) (k p : Nat) :
    unitSize o (k + p) = unitSize (o.drop k) p := by
  unfold unitSize
  rw [getD_drop_shift, wsRunLen_shift]

theorem unitStart_shift (o : List Char) (j : Nat) :
    unitStart o (j + 1) = unitSize o 0 + unitStart (o.drop (unitSize o 0)) j := by
  induction j with
  | zero =>
    unfold unitStart
    simp [unitStart]
  | succ j ih =>
    unfold unitStart
    rw [ih]
    have := unitSize_shift o (unitSize o 0) (unitStart (o.drop (unitSize o 0)) j)
    omega

/-- The size of the first unit of a whitespace-headed list. -/
theorem unitSize_zero_ws {c : Char} (cs : List Char) (h : isJsWs c = true) :
    unitSize (c :: cs) 0 = (cs.takeWhile isJsWs).length + 1 := by
  unfold unitSize wsRunLen
  rw [List.getD_cons_zero, if_pos h]
  simp [takeWhile_cons_of_pos _ h]

theorem unitSize_zero_nonWs {c : Char} (cs : List Char) (h : isJsWs c = false) :
    unitSize (c :: cs) 0 = 1 := by
  unfold unitSize
  rw [List.getD_cons_zero, h]
  rfl

/-- The central positional lemma: position `j` of the collapsed text is the
unit `j` of the original text: it starts in bounds, and the collapsed
character is a space for a whitespace unit and the unit's character
otherwise. -/
theorem collapse_pos (o : List Char) (j : Nat) (hj : j < (collapseWs o).length) :
    unitStart o j < o.length ∧
    (collapseWs o).getD j ' ' =
      (if isJsWs (o.getD (unitStart o j) ' ') then ' ' else o.getD (unitStart o j) ' ') := by
  cases o with
  | nil => rw [collapseWs_nil] at hj; simp at hj
  | cons c cs =>
    rw [collapseWs_cons] at hj ⊢
    by_cases h : isJsWs c
    · rw [if_pos h] at hj ⊢
      cases j with
      | zero =>
        refine ⟨?_, ?_⟩
        · have h0 : unitStart (c :: cs) 0 = 0 := rfl
          simp [h0]
        · have h0 : unitStart (c :: cs) 0 = 0 := rfl
          rw [h0, List.getD_cons_zero, List.getD_cons_zero, if_pos h]
      | succ j =>
        simp only [List.length_cons] at hj
        have hj' : j < (collapseWs (cs.dropWhile isJsWs)).length := by omega
        have ih := collapse_pos (cs.dropWhile isJsWs) j hj'
        have hsz : unitSize (c :: cs) 0 = (cs.takeWhile isJsWs).length + 1 :=
          unitSize_zero_ws cs h
        have hdrop : (c :: cs).drop (unitSize (c :: cs) 0) = cs.dropWhile isJsWs := by
          rw [hsz]
          simp only [List.drop_succ_cons]
          rw [dropWhileEqDrop]
        have hshift := unitStart_shift (c :: cs) j
        rw [hdrop] at hshift
        constructor
        · rw [hshift]
          have h1 : (cs.dropWhile isJsWs).length = cs.length - (cs.takeWhile isJsWs).length := by
            rw [dropWhileEqDrop]
            simp
          have h2 := takeWhileLenLe isJsWs cs
          simp only [List.length_cons]
          omega
        · rw [List.getD_cons_succ, hshift]
          have hg : (c :: cs).getD (unitSize (c :: cs) 0 + unitStart (cs.dropWhile isJsWs) j) ' '
              = (cs.dropWhile isJsWs).getD (unitStart (cs.dropWhile isJsWs) j) ' ' := by
            rw [← hdrop, getD_drop_shift]
          rw [hg]
          exact ih.2
    · rw [if_neg h] at hj ⊢
      have hf : isJsWs c = false := by revert h; cases isJsWs c <;> simp
      cases j with
      | zero =>
        refine ⟨?_, ?_⟩
        · have h0 : unitStart (c :: cs) 0 = 0 := rfl
          simp [h0]
        · have h0 : unitStart (c :: cs) 0 = 0 := rfl
          rw [h0, List.getD_cons_zero, List.getD_cons_zero, if_neg (by simp [hf])]
      | succ j =>
        simp only [List.length_cons] at hj
        have hj' : j < (collapseWs cs).length := by omega
        have ih := collapse_pos cs j hj'
        have hsz : unitSize (c :: cs) 0 = 1 := unitSize_zero_nonWs cs hf
        have hshift := unitStart_shift (c :: cs) j
        rw [hsz] at hshift
        simp only [List.drop_succ_cons, List.drop_zero] at hshift
        constructor
        · rw [hshift]
          simp only [List.length_cons]
          omega
        · rw [List.getD_cons_succ, hshift]
          have hg : (c :: cs).getD (1 + unitStart cs j) ' ' = cs.getD (unitStart cs j) ' ' := by
            have := getD_drop_shift (c :: cs) 1 (unitStart cs j)
            simp only [List.drop_succ_cons, List.drop_zero] at this
            rw [← this]
          rw [hg]
          exact ih.2
termination_by o.length
decreasing_by
· subst_vars
  simp only [List.length_cons]
  exact Nat.lt_succ_of_le (dropWhileLenLe _ _)
· subst_vars
  simp only [List.length_cons]
  exact Nat.lt_succ_of_le (Nat.le_refl _)

/-! ## The start walk lands on unit boundaries -/

theorem startWalk_unit (o : List Char) (fi n : Nat) (hn : n ≤ fi)
    (hfi : unitStart o fi < o.length) :
    startWalk o fi (unitStart o n) n = some (unitStart o fi) := by
  rw [startWalk_eq]
  have hp : unitStart o n ≤ unitStart o fi := unitStart_mono o hn
  rw [if_pos ⟨by omega, hn⟩]
  by_cases he : n = fi
  · rw [if_pos he, he]
  · rw [if_neg he]
    have hnp : unitStart o n < o.length := by omega
    by_cases hw : isJsWs (o.getD (unitStart o n) ' ')
    · simp only [hw, if_pos]
      have hstep : skipWsRun o (unitStart o n) + 1 = unitStart o (n + 1) := by
        rw [skipWsRun_eq]
        have h1 : unitStart o (n + 1) = unitStart o n + unitSize o (unitStart o n) := rfl
        rw [h1]
        unfold unitSize
        rw [if_pos hw]
        have h2 : wsRunLen o (unitStart o n) = wsRunLen o (unitStart o n + 1) + 1 := by
          unfold wsRunLen
          rw [List.drop_eq_getElem_cons hnp, ← getDIn o _ hnp, takeWhile_cons_of_pos _ hw]
          simp
        omega
      rw [hstep]
      exact startWalk_unit o fi (n + 1) (by omega) hfi
    · simp only [hw, Bool.false_eq_true, if_neg, reduceIte]
      have hstep : unitStart o n + 1 = unitStart o (n + 1) := by
        have h1 : unitStart o (n + 1) = unitStart o n + unitSize o (unitStart o n) := rfl
        unfold unitSize at h1
        rw [if_neg hw] at h1
        omega
      rw [hstep]
      exact startWalk_unit o fi (n + 1) (by omega) hfi
termination_by fi - n
decreasing_by all_goals omega

theorem actualStartOf_unit (o : List Char) (fi : Nat)
    (h : unitStart o fi < o.length) : actualStartOf o fi = unitStart o fi := by
  have hs := startWalk_unit o fi 0 (Nat.zero_le _) h
  have h0 : unitStart o 0 = 0 := rfl
  rw [h0] at hs
  unfold actualStartOf
  rw [hs]
  rfl

/-! ## The end walk: extracted countable characters -/

theorem endWalkF_filter (o : List Char) (tlen : Nat) (fuel : Nat) :
    ∀ p m, o.length - p ≤ fuel → m ≤ tlen →
    ((o.drop p).take (endWalkF o tlen fuel p m - p)).filter
        (fun b => !(wsPunctTest (lowerChar b)))
      = ((o.drop p).filter (fun b => !(wsPunctTest (lowerChar b)))).take (tlen - m) := by
  induction fuel with
  | zero =>
    intro p m hf hm
    have hd : o.drop p = [] := List.drop_eq_nil_of_le (by omega)
    rw [hd]
    simp [endWalkF]
  | succ fuel ih =>
    intro p m hf hm
    unfold endWalkF
    by_cases h : p < o.length ∧ m < tlen
    · rw [if_pos h]
      obtain ⟨hp, hm'⟩ := h
      have hdrop : o.drop p = o[p] :: o.drop (p + 1) := List.drop_eq_getElem_cons hp
      set pm := if wsPunctTest (lowerChar (o.getD p ' ')) then m else m + 1 with hpm
      have hge := endWalkF_ge o tlen fuel (p + 1) pm
      set e := endWalkF o tlen fuel (p + 1) pm with hee
      have hsub : e - p = (e - (p + 1)) + 1 := by omega
      rw [hdrop, hsub, List.take_succ_cons, List.filter_cons, List.filter_cons]
      have hgd : o.getD p ' ' = o[p] := getDIn o p hp
      by_cases hc : wsPunctTest (lowerChar o[p])
      · have hcount : (!(wsPunctTest (lowerChar o[p]))) = false := by rw [hc]; rfl
        rw [hcount]
        simp only [Bool.false_eq_true, if_neg, reduceIte]
        have hpmv : pm = m := by rw [hpm, hgd, if_pos hc]
        rw [hpmv] at hee
        rw [hee]
        exact ih (p + 1) m (by omega) hm
      · have hcf : wsPunctTest (lowerChar o[p]) = false := by
          revert hc; cases wsPunctTest (lowerChar o[p]) <;> simp
        have hcount : (!(wsPunctTest (lowerChar o[p]))) = true := by rw [hcf]; rfl
        rw [hcount]
        simp only [if_pos]
        have hpmv : pm = m + 1 := by rw [hpm, hgd, if_neg (by simp [hcf])]
        have hmt : tlen - m = (tlen - (m + 1)) + 1 := by omega
        rw [hmt, List.take_succ_cons]
        rw [hpmv] at hee
        rw [hee]
        rw [ih (p + 1) (m + 1) (by omega) (by omega)]
    · rw [if_neg h]
      simp only [Nat.sub_self, List.take_zero, List.filter_nil]
      rcases Decidable.not_and_iff_or_not.mp h with h1 | h1
    
      · have hd : o.drop p = [] := List.drop_eq_nil_of_le (by omega)
        rw [hd]
        simp
      · have hmt : tlen - m = 0 := by omega
        rw [hmt]
        simp

theorem endWalk_filter (o : List Char) (tlen p : Nat) :
    ((o.drop p).take (endWalk o tlen p 0 - p)).filter
        (fun b => !(wsPunctTest (lowerChar b)))
      = ((o.drop p).filter (fun b => !(wsPunctTest (lowerChar b)))).take tlen := by
  have := endWalkF_filter o tlen (o.length - p) p 0 (Nat.le_refl _) (Nat.zero_le _)
  simpa using this

theorem endWalkF_le (o : List Char) (tlen : Nat) (fuel : Nat) :
    ∀ p m n, tlen - m ≤
      (((o.drop p).take n).filter (fun b => !(wsPunctTest (lowerChar b)))).length →
    endWalkF o tlen fuel p m ≤ p + n := by
  induction fuel with
  | zero =>
    intro p m n hle
    simp [endWalkF]
  | succ fuel ih =>
    intro p m n hle
    unfold endWalkF
    by_cases h : p < o.length ∧ m < tlen
    · rw [if_pos h]
      obtain ⟨hp, hm⟩ := h
      cases n with
      | zero =>
        simp at hle
        omega
      | succ k =>
        have hdrop : o.drop p = o[p] :: o.drop (p + 1) := List.drop_eq_getElem_cons hp
        rw [hdrop, List.take_succ_cons, List.filter_cons] at hle
        have hgd : o.getD p ' ' = o[p] := getDIn o p hp
        by_cases hc : wsPunctTest (lowerChar o[p])
        · have hcount : (!(wsPunctTest (lowerChar o[p]))) = false := by rw [hc]; rfl
          rw [hcount] at hle
          simp only [Bool.false_eq_true, if_neg, reduceIte] at hle
          have hpmv : (if wsPunctTest (lowerChar (o.getD p ' ')) then m else m + 1) = m := by
            rw [hgd, if_pos hc]
          rw [hpmv]
          have := ih (p + 1) m k hle
          omega
        · have hcf : wsPunctTest (lowerChar o[p]) = false := by
            revert hc; cases wsPunctTest (lowerChar o[p]) <;> simp
          have hcount : (!(wsPunctTest (lowerChar o[p]))) = true := by rw [hcf]; rfl
          rw [hcount] at hle
          simp only [if_pos, List.length_cons] at hle
          have hpmv : (if wsPunctTest (lowerChar (o.getD p ' ')) then m else m + 1) = m + 1 := by
            rw [hgd, if_neg (by simp [hcf])]
          rw [hpmv]
          have := ih (p + 1) (m + 1) k (by omega)
          omega
    · rw [if_neg h]
      omega

theorem endWalk_le (o : List Char) (tlen p n : Nat)
    (hle : tlen ≤ (((o.drop p).take n).filter
        (fun b => !(wsPunctTest (lowerChar b)))).length) :
    endWalk o tlen p 0 ≤ p + n := by
  exact endWalkF_le o tlen _ p 0 n (by simpa using hle)

/-! ## Structure of trimming on collapsed text -/

theorem trim_as_take (l : List Char) :
    trimWs l = (l.drop (l.takeWhile isJsWs).length).take
      ((l.drop (l.takeWhile isJsWs).length).length -
        ((l.drop (l.takeWhile isJsWs).length).reverse.takeWhile isJsWs).length) := by
  unfold trimWs
  rw [dropWhileEqDrop isJsWs l]
  set M := l.drop (l.takeWhile isJsWs).length with hM
  rw [dropWhileEqDrop isJsWs M.reverse]
  rw [List.reverse_drop]
  simp

theorem trim_getD (l : List Char) (j : Nat) (hj : j < (trimWs l).length) :
    (trimWs l).getD j ' ' = l.getD (j + (l.takeWhile isJsWs).length) ' ' := by
  rw [trim_as_take] at hj ⊢
  set k := (l.takeWhile isJsWs).length with hk
  set M := l.drop k with hM
  set q := M.length - (M.reverse.takeWhile isJsWs).length with hq
  have hjq : j < (M.take q).length := hj
  have hjlen : j < M.length := by
    simp at hjq
    omega
  rw [getDIn _ j hjq, List.getElem_take, ← getDIn M j hjlen, hM, getDDrop]
  rw [Nat.add_comm]

theorem trim_len_add (l : List Char) :
    (trimWs l).length + (l.takeWhile isJsWs).length ≤ l.length := by
  rw [trim_as_take]
  set k := (l.takeWhile isJsWs).length with hk
  have h1 := takeWhileLenLe isJsWs l
  simp
  omega

theorem collapse_takeWhile_le_one (l : List Char) :
    ((collapseWs l).takeWhile isJsWs).length ≤ 1 := by
  cases l with
  | nil => rw [collapseWs_nil]; simp
  | cons c cs =>
    rw [collapseWs_cons]
    by_cases h : isJsWs c
    · rw [if_pos h, takeWhile_cons_of_pos _ (by decide)]
      have htail : (collapseWs (cs.dropWhile isJsWs)).takeWhile isJsWs = [] := by
        cases hd : cs.dropWhile isJsWs with
        | nil => rw [collapseWs_nil]; rfl
        | cons d ds =>
          have hdws : isJsWs d = false := dropWhileHeadFalse isJsWs cs d ds hd
          rw [collapseWs_cons, if_neg (by simp [hdws]), List.takeWhile_cons, if_neg (by simp [hdws])]
      rw [htail]
      simp
    · rw [if_neg h, List.takeWhile_cons, if_neg h]
      simp

theorem take_takeWhile {α : Type} (p : α → Bool) (l : List α) :
    l.take ((l.takeWhile p).length) = l.takeWhile p := by
  induction l with
  | nil => rfl
  | cons a l ih =>
    rw [List.takeWhile_cons]
    by_cases h : p a
    · rw [if_pos h]
      simp only [List.length_cons, List.take_succ_cons]
      rw [ih]
    · rw [if_neg h]
      simp

theorem takeIsPrefixOf (l : List Char) (n : Nat) : (l.take n).isPrefixOf l = true := by
  induction l generalizing n with
  | nil => cases n <;> rfl
  | cons a l ih =>
    cases n with
    | zero => rfl
    | succ n =>
      rw [List.take_succ_cons]
      simp only [List.isPrefixOf, beq_self_eq_true, Bool.true_and]
      exact ih n

theorem filter_subpred (p q : Char → Bool) (h : ∀ b, p b = true → q b = true)
    (l : List Char) : (l.filter q).filter p = l.filter p := by
  induction l with
  | nil => rfl
  | cons a l ih =>
    by_cases hq : q a = true
    · by_cases hp2 : p a = true
      · simp [List.filter_cons, hq, hp2, ih]
      · simp [List.filter_cons, hq, hp2, ih]
    · have hp : p a = false := by
        cases hx : p a
        · rfl
        · exact absurd (h a hx) hq
      simp [List.filter_cons, hq, hp, ih]

theorem getD_map_normChar (l : List Char) (j : Nat) (hj : j < l.length) :
    (l.map normChar).getD j ' ' = normChar (l.getD j ' ') := by
  rw [getDIn _ j (by simpa using hj), getDIn l j hj]
  simp

theorem trim_map (f : Char → Char) (hws : ∀ c, isJsWs (f c) = isJsWs c)
    (l : List Char) : trimWs (l.map f) = (trimWs l).map f := by
  have hcomp : isJsWs ∘ f = isJsWs := funext hws
  unfold trimWs
  rw [List.dropWhile_map, hcomp, ← List.map_reverse, List.dropWhile_map, hcomp,
    ← List.map_reverse]

set_option maxHeartbeats 1600000 in
/-- The ASCII-map part of the decomposition: character substitution first,
then collapsing and trimming commute with the per-character map. -/
theorem mapLower_decomp (s : List Char) :
    (normalizeText s).map lowerChar = (trimWs (collapseWs s)).map normChar := by
  unfold normalizeText
  have hmaps : (((s.map replQuote1).map replQuote2).map replDash).map replArrow
      = s.map replChar := by
    rw [List.map_map, List.map_map, List.map_map]
    rfl
  rw [hmaps]
  have hpres : ∀ c, isJsWs (replChar c) = isJsWs c := isJsWs_replChar
  have hcoll : collapseWs (s.map replChar) = (collapseWs s).map replChar :=
    collapse_map replChar hpres (by decide) s
  rw [hcoll, trim_map replChar hpres (collapseWs s), List.map_map]
  show (trimWs (collapseWs s)).map (lowerChar ∘ replChar) = (trimWs (collapseWs s)).map normChar
  rfl

theorem replQuote1_ne_I {c : Char} (h : ¬ c = '\u0130') : ¬ replQuote1 c = '\u0130' := by
  unfold replQuote1
  by_cases hc : c = '‘' ∨ c = '’'
  · rw [if_pos hc]; decide
  · rw [if_neg hc]; exact h

theorem replQuote2_ne_I {c : Char} (h : ¬ c = '\u0130') : ¬ replQuote2 c = '\u0130' := by
  unfold replQuote2
  by_cases hc : c = '“' ∨ c = '”'
  · rw [if_pos hc]; decide
  · rw [if_neg hc]; exact h

theorem replDash_ne_I {c : Char} (h : ¬ c = '\u0130') : ¬ replDash c = '\u0130' := by
  unfold replDash
  by_cases hc : c = '–' ∨ c = '—'
  · rw [if_pos hc]; decide
  · rw [if_neg hc]; exact h

theorem replArrow_ne_I {c : Char} (h : ¬ c = '\u0130') : ¬ replArrow c = '\u0130' := by
  unfold replArrow
  by_cases hc : c = '→'
  · rw [if_pos hc]; decide
  · rw [if_neg hc]; exact h

theorem collapse_mem (l : List Char) (c : Char) (h : c ∈ collapseWs l) :
    c = ' ' ∨ c ∈ l := by
  cases l with
  | nil => rw [collapseWs_nil] at h; simp at h
  | cons d ds =>
    rw [collapseWs_cons] at h
    by_cases hws : isJsWs d
    · rw [if_pos hws] at h
      rcases List.mem_cons.mp h with he | he
      · exact Or.inl he
      · rcases collapse_mem (ds.dropWhile isJsWs) c he with h1 | h1
        · exact Or.inl h1
        · refine Or.inr (List.mem_cons_of_mem _ ?_)
          rw [dropWhileEqDrop] at h1
          exact List.mem_of_mem_drop h1
    · rw [if_neg hws] at h
      rcases List.mem_cons.mp h with he | he
      · exact Or.inr (he ▸ List.mem_cons_self _ _)
      · rcases collapse_mem ds c he with h1 | h1
        · exact Or.inl h1
        · exact Or.inr (List.mem_cons_of_mem _ h1)
termination_by l.length
decreasing_by
  all_goals subst_vars
  · simp only [List.length_cons]
    exact Nat.lt_succ_of_le (dropWhileLenLe _ _)
  · simp only [List.length_cons]
    omega

theorem trim_mem (l : List Char) (c : Char) (h : c ∈ trimWs l) : c ∈ l := by
  unfold trimWs at h
  rw [List.mem_reverse, dropWhileEqDrop] at h
  have h2 := List.mem_of_mem_drop h
  rw [List.mem_reverse, dropWhileEqDrop] at h2
  exact List.mem_of_mem_drop h2

theorem noI_normalizeText {s : List Char} (h : ¬ '\u0130' ∈ s) :
    ¬ '\u0130' ∈ normalizeText s := by
  intro hc
  unfold normalizeText at hc
  have hc2 := trim_mem _ _ hc
  rcases collapse_mem _ _ hc2 with he | he
  · exact absurd he (by decide)
  · simp only [List.map_map] at he
    obtain ⟨b, hb, hbe⟩ := List.mem_map.mp he
    have hbne : ¬ b = '\u0130' := fun hbeq => h (hbeq ▸ hb)
    exact replArrow_ne_I (replDash_ne_I (replQuote2_ne_I (replQuote1_ne_I hbne))) hbe

theorem flatMap_lowerJS_noI (l : List Char) (h : ¬ '\u0130' ∈ l) :
    l.flatMap lowerJS = l.map lowerChar := by
  induction l with
  | nil => rfl
  | cons c cs ih =>
    rw [List.flatMap_cons, List.map_cons,
      ih (fun hm => h (List.mem_cons_of_mem _ hm))]
    unfold lowerJS
    rw [if_neg (fun he => h (by rw [← he]; exact List.mem_cons_self _ _))]
    rfl

/-- For input without U+0130, lowercasing is one character to one
character, and the normalized-lowercased string decomposes as the
per-character map over the collapsed, trimmed original. -/
theorem normLower_decomp (s : List Char) (h : ¬ '\u0130' ∈ s) :
    normLower s = (trimWs (collapseWs s)).map normChar := by
  unfold normLower
  rw [flatMap_lowerJS_noI _ (noI_normalizeText h), mapLower_decomp]

/-! ## The span of an accepted occurrence -/

theorem span_positions (o t : List Char) (fi : Nat)
    (ht : 0 < t.length)
    (htc : ∀ c ∈ t, wsPunctTest c = false)
    (hmem : fi ∈ acceptedAt ((trimWs (collapseWs o)).map normChar) t) :
    unitStart o fi < o.length ∧
    (∀ r, r ≤ t.length →
      unitStart o (fi + ((collapseWs o).takeWhile isJsWs).length + r) =
        unitStart o (fi + ((collapseWs o).takeWhile isJsWs).length) + r) ∧
    (∀ r, r < t.length →
      isJsWs (o.getD (unitStart o (fi + ((collapseWs o).takeWhile isJsWs).length) + r) ' ') = false ∧
      normChar (o.getD (unitStart o (fi + ((collapseWs o).takeWhile isJsWs).length) + r) ' ') =
        t.getD r ' ') ∧
    unitStart o (fi + ((collapseWs o).takeWhile isJsWs).length) + t.length ≤ o.length ∧
    (∀ b ∈ (o.drop (unitStart o fi)).take
        (unitStart o (fi + ((collapseWs o).takeWhile isJsWs).length) - unitStart o fi),
      wsPunctTest (normChar b) = true) ∧
    (((o.drop (unitStart o fi)).take
        (unitStart o (fi + ((collapseWs o).takeWhile isJsWs).length) - unitStart o fi)).filter
        (fun b => !(wsPunctTest (lowerChar b)))).length ≤ 1 := by
  obtain ⟨hfl, hocc, hbnd⟩ := acceptedAt_mem hmem
  have hnclen : ((trimWs (collapseWs o)).map normChar).length = (trimWs (collapseWs o)).length := by
    simp
  have hflT : fi < (trimWs (collapseWs o)).length := by rw [hnclen] at hfl; exact hfl
  have hTk : (trimWs (collapseWs o)).length + ((collapseWs o).takeWhile isJsWs).length
      ≤ (collapseWs o).length := trim_len_add (collapseWs o)
  have hfit : fi + t.length ≤ (trimWs (collapseWs o)).length := by
    have h1 := occursLen hocc
    rw [hnclen] at h1
    omega
  have hkk : ((collapseWs o).takeWhile isJsWs).length ≤ 1 := collapse_takeWhile_le_one o
  set k := ((collapseWs o).takeWhile isJsWs).length with hkdef
  have htrans : ∀ j, j < (trimWs (collapseWs o)).length →
      ((trimWs (collapseWs o)).map normChar).getD j ' '
        = normChar ((collapseWs o).getD (j + k) ' ') := by
    intro j hj
    rw [getD_map_normChar _ j hj, trim_getD (collapseWs o) j hj]
  have hCb : ∀ r, r < t.length → fi + k + r < (collapseWs o).length := by
    intro r hr
    omega
  have hchar : ∀ r, r < t.length →
      isJsWs (o.getD (unitStart o (fi + k + r)) ' ') = false ∧
      normChar (o.getD (unitStart o (fi + k + r)) ' ') = t.getD r ' ' := by
    intro r hr
    have hcp := collapse_pos o (fi + k + r) (hCb r hr)
    have htcr : wsPunctTest (t.getD r ' ') = false := by
      apply htc
      rw [getDIn t r hr]
      exact List.getElem_mem hr
    have hocc' : ((trimWs (collapseWs o)).map normChar).getD (fi + r) ' ' = t.getD r ' ' :=
      occursChar hocc r hr
    have htr2 := htrans (fi + r) (by omega)
    rw [show fi + r + k = fi + k + r by omega] at htr2
    have hkey : normChar ((collapseWs o).getD (fi + k + r) ' ') = t.getD r ' ' := by
      rw [← htr2, hocc']
    by_cases hw : isJsWs (o.getD (unitStart o (fi + k + r)) ' ')
    · exfalso
      have hsp : (collapseWs o).getD (fi + k + r) ' ' = ' ' := by rw [hcp.2, if_pos hw]
      rw [hsp, normChar_space] at hkey
      rw [← hkey] at htcr
      revert htcr
      decide
    · have hw' : isJsWs (o.getD (unitStart o (fi + k + r)) ' ') = false := by
        revert hw; cases isJsWs (o.getD (unitStart o (fi + k + r)) ' ') <;> simp
      refine ⟨hw', ?_⟩
      have hsp : (collapseWs o).getD (fi + k + r) ' '
          = o.getD (unitStart o (fi + k + r)) ' ' := by rw [hcp.2, if_neg hw]
      rw [← hkey, hsp]
  have hconsec : ∀ r, r ≤ t.length →
      unitStart o (fi + k + r) = unitStart o (fi + k) + r := by
    intro r
    induction r with
    | zero => intro _; simp
    | succ r ihr =>
      intro hr
      have h1 := ihr (by omega)
      have hidx : fi + k + (r + 1) = (fi + k + r) + 1 := by omega
      have hstep : unitStart o ((fi + k + r) + 1)
          = unitStart o (fi + k + r) + unitSize o (unitStart o (fi + k + r)) := rfl
      have hws := (hchar r (by omega)).1
      have hsz : unitSize o (unitStart o (fi + k + r)) = 1 := by
        unfold unitSize
        rw [if_neg (by rw [hws]; exact Bool.false_ne_true)]
      rw [hidx, hstep, hsz, h1]
      omega
  have hsfi : unitStart o fi < o.length := (collapse_pos o fi (by omega)).1
  have hU0len : unitStart o (fi + k) + t.length ≤ o.length := by
    have h1 := hconsec t.length (Nat.le_refl _)
    have h2 := unitStart_le_len o (fi + k + t.length)
    omega
  have hchar2 : ∀ r, r < t.length →
      isJsWs (o.getD (unitStart o (fi + k) + r) ' ') = false ∧
      normChar (o.getD (unitStart o (fi + k) + r) ' ') = t.getD r ' ' := by
    intro r hr
    have := hchar r hr
    rwa [hconsec r (by omega)] at this
  have hApart : (∀ b ∈ (o.drop (unitStart o fi)).take
        (unitStart o (fi + k) - unitStart o fi), wsPunctTest (normChar b) = true) ∧
      (((o.drop (unitStart o fi)).take
        (unitStart o (fi + k) - unitStart o fi)).filter
        (fun b => !(wsPunctTest (lowerChar b)))).length ≤ 1 := by
    rcases Nat.lt_or_ge k 1 with hk0 | hk1
    · have hke : k = 0 := by omega
      rw [hke]
      simp
    · have hke : k = 1 := by omega
      have hstep1 : unitStart o (fi + 1)
          = unitStart o fi + unitSize o (unitStart o fi) := rfl
      rw [hke]
      by_cases hw : isJsWs (o.getD (unitStart o fi) ' ')
      · have hszw : unitSize o (unitStart o fi) = wsRunLen o (unitStart o fi) := by
          unfold unitSize
          rw [if_pos hw]
        have hAtw : (o.drop (unitStart o fi)).take
              (unitStart o (fi + 1) - unitStart o fi)
            = (o.drop (unitStart o fi)).takeWhile isJsWs := by
          rw [hstep1, hszw, Nat.add_sub_cancel_left]
          exact take_takeWhile isJsWs _
        rw [hAtw]
        constructor
        · intro b hb
          have hbw := takeWhileAll isJsWs _ b hb
          unfold wsPunctTest
          rw [isJsWs_normChar, hbw]
          rfl
        · have hnil : ((o.drop (unitStart o fi)).takeWhile isJsWs).filter
              (fun b => !(wsPunctTest (lowerChar b))) = [] := by
            rw [List.filter_eq_nil_iff]
            intro b hb
            have hbw := takeWhileAll isJsWs _ b hb
            have : wsPunctTest (lowerChar b) = true := by
              rw [wsPunctTest_lowerChar]
              unfold wsPunctTest
              rw [hbw]
              rfl
            simp [this]
          rw [hnil]
          simp
      · have hsz1 : unitSize o (unitStart o fi) = 1 := by
          unfold unitSize
          rw [if_neg hw]
        have hA1 : (o.drop (unitStart o fi)).take (unitStart o (fi + 1) - unitStart o fi)
            = [o.getD (unitStart o fi) ' '] := by
          rw [hstep1, hsz1, Nat.add_sub_cancel_left]
          rw [List.drop_eq_getElem_cons hsfi, List.take_succ_cons, List.take_zero,
            getDIn o _ hsfi]
        rw [hA1]
        have hkey : wsPunctTest (normChar (o.getD (unitStart o fi) ' ')) = true := by
          by_cases hfi0 : fi = 0
          · exfalso
            have hClen : 0 < (collapseWs o).length := by omega
            have hChead : isJsWs ((collapseWs o).getD 0 ' ') = true := by
              cases hCc : collapseWs o with
              | nil => rw [hCc] at hClen; simp at hClen
              | cons c0 cr =>
                by_cases hc0 : isJsWs c0
                · rw [List.getD_cons_zero]
                  exact hc0
                · exfalso
                  have : k = 0 := by
                    rw [hkdef, hCc, List.takeWhile_cons, if_neg hc0]
                    rfl
                  omega
            have hcp0 := collapse_pos o 0 hClen
            have hU00 : unitStart o 0 = 0 := rfl
            subst hfi0
            rw [hU00] at hcp0
            rw [hU00] at hw
            rw [hcp0.2, if_neg hw] at hChead
            exact hw hChead
          · obtain ⟨hb1, hb2⟩ := acceptedAt_boundary hmem
            rcases hb1 with h0 | hbw
            · exact absurd h0 hfi0
            · have htr3 := htrans (fi - 1) (by omega)
              rw [show fi - 1 + k = fi by omega] at htr3
              have hcpf := collapse_pos o fi (by omega)
              rw [htr3, hcpf.2, if_neg hw] at hbw
              exact hbw
        constructor
        · intro b hb
          rw [List.mem_singleton] at hb
          subst hb
          exact hkey
        · rw [List.filter_cons]
          by_cases hc : (!(wsPunctTest (lowerChar (o.getD (unitStart o fi) ' ')))) = true
          · rw [if_pos hc]
            simp
          · rw [if_neg hc]
            simp
  exact ⟨hsfi, hconsec, hchar2, hU0len, hApart.1, hApart.2⟩

theorem spanCore (o t : List Char) (fi : Nat)
    (ht : 0 < t.length)
    (htc : ∀ c ∈ t, wsPunctTest c = false)
    (hmem : fi ∈ acceptedAt ((trimWs (collapseWs o)).map normChar) t) :
    actualStartOf o fi = unitStart o fi ∧
    unitStart o fi < min (endWalk o t.length (actualStartOf o fi) 0) o.length ∧
    min (endWalk o t.length (actualStartOf o fi) 0) o.length
      ≤ unitStart o (fi + ((collapseWs o).takeWhile isJsWs).length + t.length) ∧
    ((((o.drop (actualStartOf o fi)).take
        (min (endWalk o t.length (actualStartOf o fi) 0) o.length - actualStartOf o fi)).filter
        (fun b => !(wsPunctTest (normChar b)))).map normChar).isPrefixOf t = true := by
  obtain ⟨hsfi, hconsec, hchar2, hU0len, hAall, hBlen⟩ := span_positions o t fi ht htc hmem
  set k := ((collapseWs o).takeWhile isJsWs).length with hkdef
  have hs : actualStartOf o fi = unitStart o fi := actualStartOf_unit o fi hsfi
  rw [hs]
  set s := unitStart o fi with hsdef
  set U0 := unitStart o (fi + k) with hU0def
  have hsU0 : s ≤ U0 := unitStart_mono o (by omega)
  set im := (o.drop U0).take t.length with himdef
  have himlen : im.length = t.length := by
    rw [himdef, List.length_take, List.length_drop]
    omega
  have himget : ∀ r, r < t.length → im.getD r ' ' = o.getD (U0 + r) ' ' := by
    intro r hr
    have h1 : r < im.length := by rw [himlen]; exact hr
    have h2 : r < (o.drop U0).length := by simp; omega
    rw [himdef] at h1 ⊢
    rw [getDIn _ r h1, List.getElem_take, ← getDIn (o.drop U0) r h2, getDDrop]
  have hmemfact : ∀ b ∈ im, wsPunctTest (normChar b) = false := by
    intro b hb
    obtain ⟨r, hr, hbr⟩ := List.getElem_of_mem hb
    have hrlen : r < t.length := by rw [himlen] at hr; exact hr
    have hbval : b = o.getD (U0 + r) ' ' := by
      rw [← himget r hrlen, getDIn im r hr, hbr]
    have hnc := (hchar2 r hrlen).2
    rw [← hbval] at hnc
    have htcr : wsPunctTest (t.getD r ' ') = false := by
      apply htc
      rw [getDIn t r hrlen]
      exact List.getElem_mem hrlen
    rw [hnc]
    exact htcr
  have hcount_im : ∀ b ∈ im, (fun b => !(wsPunctTest (lowerChar b))) b = true := by
    intro b hb
    have := countable_of_unstripped (hmemfact b hb)
    simp [this]
  have hncf_im : ∀ b ∈ im, (fun b => !(wsPunctTest (normChar b))) b = true := by
    intro b hb
    have := hmemfact b hb
    simp [this]
  have hmap_im : im.map normChar = t := by
    apply List.ext_getElem
    · rw [List.length_map, himlen]
    · intro r h1 h2
      have hrlen : r < t.length := h2
      have hr_im : r < im.length := by rw [himlen]; exact hrlen
      have h3 : (im.map normChar)[r] = normChar im[r] := by simp
      rw [h3, ← getDIn im r hr_im, himget r hrlen, ← getDIn t r hrlen]
      exact (hchar2 r hrlen).2
  set A := (o.drop s).take (U0 - s) with hAdef
  have hsplit1 : o.drop s = A ++ o.drop U0 := by
    have h1 : (o.drop s).drop (U0 - s) = o.drop U0 := by
      rw [List.drop_drop]
      congr 1
      omega
    rw [hAdef, ← h1, List.take_append_drop]
  have hsplit2 : o.drop U0 = im ++ o.drop (U0 + t.length) := by
    have h1 : (o.drop U0).drop t.length = o.drop (U0 + t.length) := by
      rw [List.drop_drop]
    rw [himdef, ← h1, List.take_append_drop]
  set countF := fun b => !(wsPunctTest (lowerChar b)) with hcountdef
  set B := A.filter countF with hBdef
  have hfcdrop : (o.drop s).filter countF = B ++ (im ++ (o.drop (U0 + t.length)).filter countF) := by
    rw [hsplit1, List.filter_append, hsplit2, List.filter_append,
      List.filter_eq_self.mpr hcount_im]
  set eRaw := endWalk o t.length s 0 with heRawdef
  have hext_take : (o.drop s).take (min eRaw o.length - s) = (o.drop s).take (eRaw - s) := by
    rcases le_or_lt eRaw o.length with hle | hlt
    · rw [Nat.min_eq_left hle]
    · rw [Nat.min_eq_right (by omega)]
      rw [List.take_of_length_le (by simp), List.take_of_length_le (by simp; omega)]
  have hfext : ((o.drop s).take (eRaw - s)).filter countF
      = ((o.drop s).filter countF).take t.length := by
    rw [heRawdef]
    exact endWalk_filter o t.length s
  have htake_decomp : ((o.drop s).filter countF).take t.length
      = B ++ im.take (t.length - B.length) := by
    rw [hfcdrop, List.take_append_eq_append_take,
      List.take_of_length_le (le_trans hBlen ht),
      List.take_append_eq_append_take]
    have h2 : t.length - B.length - im.length = 0 := by
      rw [himlen]
      omega
    rw [h2]
    simp
  have hsub : ∀ b, (fun b => !(wsPunctTest (normChar b))) b = true → countF b = true := by
    intro b hb
    simp only [Bool.not_eq_true'] at hb
    have := countable_of_unstripped hb
    simp [hcountdef, this]
  have hE : ((o.drop s).take (min eRaw o.length - s)).filter
      (fun b => !(wsPunctTest (normChar b))) = im.take (t.length - B.length) := by
    rw [hext_take,
      ← filter_subpred (fun b => !(wsPunctTest (normChar b))) countF hsub,
      hfext, htake_decomp, List.filter_append]
    have hBnil : B.filter (fun b => !(wsPunctTest (normChar b))) = [] := by
      rw [List.filter_eq_nil_iff]
      intro b hb
      have hbA : b ∈ A := List.mem_of_mem_filter hb
      have := hAall b hbA
      simp [this]
    have himtake : (im.take (t.length - B.length)).filter
        (fun b => !(wsPunctTest (normChar b))) = im.take (t.length - B.length) := by
      apply List.filter_eq_self.mpr
      intro b hb
      exact hncf_im b (List.mem_of_mem_take hb)
    rw [hBnil, himtake]
    simp
  have heBound : min eRaw o.length ≤ unitStart o (fi + k + t.length) := by
    have hcons_t := hconsec t.length (Nat.le_refl _)
    have htake_am : (o.drop s).take (U0 - s + t.length) = A ++ im := by
      rw [List.take_add]
      have h1 : (o.drop s).drop (U0 - s) = o.drop U0 := by
        rw [List.drop_drop]
        congr 1
        omega
      rw [h1, ← hAdef, ← himdef]
    have hflen : t.length ≤ (((o.drop s).take (U0 - s + t.length)).filter countF).length := by
      rw [htake_am, List.filter_append, List.filter_eq_self.mpr hcount_im]
      simp [himlen]
    have := endWalk_le o t.length s (U0 - s + t.length) (by
      rw [hcountdef] at hflen
      exact hflen)
    rw [hcons_t]
    have hmin : min eRaw o.length ≤ eRaw := Nat.min_le_left _ _
    omega
  have hsLt : s < min eRaw o.length := by
    have hslen : s < o.length := hsfi
    have h1 : eRaw = endWalk o t.length (s + 1)
        (if wsPunctTest (lowerChar (o.getD s ' ')) then 0 else 0 + 1) := by
      rw [heRawdef, endWalk_eq]
      rw [if_pos ⟨hslen, ht⟩]
    have h2 := endWalk_ge o t.length (s + 1)
      (if wsPunctTest (lowerChar (o.getD s ' ')) then 0 else 0 + 1)
    rw [← h1] at h2
    omega
  refine ⟨rfl, hsLt, heBound, ?_⟩
  rw [hE, List.map_take, hmap_im]
  exact takeIsPrefixOf t _

/-! ## Accepted occurrences of class-free terms cannot nest or touch -/

theorem gapAux {nc t1 t2 : List Char} {fi1 fi2 : Nat}
    (h1 : fi1 ∈ acceptedAt nc t1) (h2 : fi2 ∈ acceptedAt nc t2)
    (ht1 : 0 < t1.length) (ht2 : 0 < t2.length)
    (htc1 : ∀ c ∈ t1, wsPunctTest c = false)
    (htc2 : ∀ c ∈ t2, wsPunctTest c = false)
    (hlt : fi1 < fi2) : fi1 + t1.length < fi2 := by
  by_contra hcon
  have hle : fi2 ≤ fi1 + t1.length := by omega
  obtain ⟨hl1, hocc1, hb1⟩ := acceptedAt_mem h1
  obtain ⟨hl2, hocc2, hb2⟩ := acceptedAt_mem h2
  rcases Nat.lt_or_ge fi2 (fi1 + t1.length) with hin | hout
  · -- fi2 - 1 lies inside the first occurrence
    have hr : fi2 - 1 - fi1 < t1.length := by omega
    have hchar := occursChar hocc1 (fi2 - 1 - fi1) hr
    rw [show fi1 + (fi2 - 1 - fi1) = fi2 - 1 by omega] at hchar
    have hcls : wsPunctTest (nc.getD (fi2 - 1) ' ') = false := by
      rw [hchar]
      apply htc1
      rw [getDIn t1 _ hr]
      exact List.getElem_mem hr
    obtain ⟨hbb, _⟩ := acceptedAt_boundary h2
    rcases hbb with h0 | hcls2
    · omega
    · rw [hcls] at hcls2
      simp at hcls2
  · -- the two occurrences touch: fi2 = fi1 + t1.length
    have heq : fi2 = fi1 + t1.length := by omega
    have hchar := occursChar hocc2 0 ht2
    rw [Nat.add_zero] at hchar
    have hcls : wsPunctTest (nc.getD fi2 ' ') = false := by
      rw [hchar]
      apply htc2
      rw [getDIn t2 _ ht2]
      exact List.getElem_mem ht2
    obtain ⟨_, hba⟩ := acceptedAt_boundary h1
    rcases hba with hend | hcls2
    · omega
    · rw [← heq, hcls] at hcls2
      simp at hcls2

theorem noNest {nc t1 t2 : List Char} {fi : Nat}
    (h1 : fi ∈ acceptedAt nc t1) (h2 : fi ∈ acceptedAt nc t2)
    (ht1 : 0 < t1.length) (ht2 : 0 < t2.length)
    (htc2 : ∀ c ∈ t2, wsPunctTest c = false)
    (hlt : t1.length < t2.length) : False := by
  obtain ⟨hl1, hocc1, hb1⟩ := acceptedAt_mem h1
  obtain ⟨hl2, hocc2, hb2⟩ := acceptedAt_mem h2
  have hr : t1.length < t2.length := hlt
  have hchar := occursChar hocc2 t1.length hr
  have hcls : wsPunctTest (nc.getD (fi + t1.length) ' ') = false := by
    rw [hchar]
    apply htc2
    rw [getDIn t2 _ hr]
    exact List.getElem_mem hr
  have hlen2 : fi + t2.length ≤ nc.length := by
    have := occursLen hocc2
    omega
  obtain ⟨_, hba⟩ := acceptedAt_boundary h1
  rcases hba with hend | hcls2
  · omega
  · rw [hcls] at hcls2
    simp at hcls2

/-- Two accepted occurrences of class-free terms with different normalized
footprints produce disjoint original-string spans. -/
theorem spanDisjoint (o t1 t2 : List Char) (fi1 fi2 : Nat)
    (ht1 : 0 < t1.length) (ht2 : 0 < t2.length)
    (htc1 : ∀ c ∈ t1, wsPunctTest c = false)
    (htc2 : ∀ c ∈ t2, wsPunctTest c = false)
    (h1 : fi1 ∈ acceptedAt ((trimWs (collapseWs o)).map normChar) t1)
    (h2 : fi2 ∈ acceptedAt ((trimWs (collapseWs o)).map normChar) t2)
    (hne : ¬(fi1 = fi2 ∧ t1.length = t2.length)) :
    min (endWalk o t1.length (actualStartOf o fi1) 0) o.length ≤ actualStartOf o fi2 ∨
    min (endWalk o t2.length (actualStartOf o fi2) 0) o.length ≤ actualStartOf o fi1 := by
  obtain ⟨hs1, _, hb1, _⟩ := spanCore o t1 fi1 ht1 htc1 h1
  obtain ⟨hs2, _, hb2, _⟩ := spanCore o t2 fi2 ht2 htc2 h2
  have hkk := collapse_takeWhile_le_one o
  rcases Nat.lt_trichotomy fi1 fi2 with hlt | heq | hgt
  · left
    have hgap := gapAux h1 h2 ht1 ht2 htc1 htc2 hlt
    have hmono : unitStart o (fi1 + ((collapseWs o).takeWhile isJsWs).length + t1.length)
        ≤ unitStart o fi2 := unitStart_mono o (by omega)
    rw [hs2]
    omega
  · exfalso
    subst heq
    rcases Nat.lt_trichotomy t1.length t2.length with hl | he | hl
    · exact noNest h1 h2 ht1 ht2 htc2 hl
    · exact hne ⟨rfl, he⟩
    · exact noNest h2 h1 ht2 ht1 htc1 hl
  · right
    have hgap := gapAux h2 h1 ht2 ht1 htc2 htc1 hgt
    have hmono : unitStart o (fi2 + ((collapseWs o).takeWhile isJsWs).length + t2.length)
        ≤ unitStart o fi1 := unitStart_mono o (by omega)
    rw [hs1]
    omega

/-! ## General filter commutation with collapsing and trimming -/

theorem filterGen_dropWhile (q : Char → Bool)
    (hq : ∀ c, isJsWs c = true → q c = false) (l : List Char) :
    (l.dropWhile isJsWs).filter q = l.filter q := by
  induction l with
  | nil => rfl
  | cons a l ih =>
    rw [List.dropWhile_cons]
    by_cases h : isJsWs a
    · rw [if_pos h, ih, List.filter_cons, if_neg (by simp [hq a h])]
    · rw [if_neg h]

theorem filterGen_collapse (q : Char → Bool)
    (hq : ∀ c, isJsWs c = true → q c = false) (l : List Char) :
    (collapseWs l).filter q = l.filter q := by
  cases l with
  | nil => rw [collapseWs_nil]
  | cons c cs =>
    rw [collapseWs_cons]
    by_cases h : isJsWs c
    · rw [if_pos h, List.filter_cons, List.filter_cons,
        if_neg (by simp [hq ' ' (by decide)]), if_neg (by simp [hq c h]),
        filterGen_collapse q hq (cs.dropWhile isJsWs), filterGen_dropWhile q hq cs]
    · rw [if_neg h, List.filter_cons, List.filter_cons,
        filterGen_collapse q hq cs]
termination_by l.length
decreasing_by
· simp only [List.length_cons]
  exact Nat.lt_succ_of_le (dropWhileLenLe _ _)
· simp only [List.length_cons]
  exact Nat.lt_succ_of_le (Nat.le_refl _)

theorem filterGen_trim (q : Char → Bool)
    (hq : ∀ c, isJsWs c = true → q c = false) (l : List Char) :
    (trimWs l).filter q = l.filter q := by
  unfold trimWs
  rw [List.filter_reverse, filterGen_dropWhile q hq, List.filter_reverse,
    List.reverse_reverse, filterGen_dropWhile q hq]

/-! ## Claim-side text transformations -/

/-- Remove hyphens (the "hyphen-splitting" accounting of the claims). -/
def delHyphen (l : List Char) : List Char :=
  l.filter (fun c => !(c = '-'))

/-! ## Characterizing the matcher's output -/

/-- The normalization cache only ever stores a node's normalized-lowercased
content. -/
def CacheWF (cache : NodeCache) : Prop :=
  ∀ p ∈ cache, p.2 = normLower p.1.content

theorem cacheGet_wf {cache : NodeCache} (h : CacheWF cache) (tn : TextNode)
    {v : List Char} (hv : cacheGet cache tn = some v) : v = normLower tn.content := by
  unfold cacheGet at hv
  cases hf : cache.find? (fun p => p.1 = tn) with
  | none => rw [hf] at hv; simp at hv
  | some pr =>
    rw [hf] at hv
    simp at hv
    have hmem := List.mem_of_find?_eq_some hf
    have hpred := List.find?_some hf
    simp at hpred
    rw [← hv, h pr hmem, hpred]

theorem findWordLoop_out (word st nh : List Char) :
    ∀ (tns : List TextNode) (cache : NodeCache), CacheWF cache →
    (findWordLoop word st nh tns cache).1
      = tns.flatMap (fun tn => wordLocsInLeaf tn word st nh (normLower tn.content)) ∧
    CacheWF (findWordLoop word st nh tns cache).2 := by
  intro tns
  induction tns with
  | nil => intro c h; exact ⟨rfl, h⟩
  | cons tn rest ih =>
    intro c h
    unfold findWordLoop
    cases hg : cacheGet c tn with
    | some v =>
      have hv := cacheGet_wf h tn hg
      simp only [hg]
      obtain ⟨h1, h2⟩ := ih c h
      constructor
      · rw [List.flatMap_cons, hv, h1]
      · exact h2
    | none =>
      have hwf' : CacheWF ((tn, normLower tn.content) :: c) := by
        intro p hp
        rcases List.mem_cons.mp hp with h1 | h1
        · subst h1; rfl
        · exact h p h1
      simp only [hg]
      obtain ⟨h1, h2⟩ := ih _ hwf'
      exact ⟨by rw [List.flatMap_cons, h1], h2⟩

theorem findWordPure_repr (tns : List TextNode) (word : List Char) :
    findWordPure tns word =
      if (strippedOf word).length = 0 then []
      else tns.flatMap (fun tn => wordLocsInLeaf tn word (strippedOf word)
        (noHyphenOf (strippedOf word)) (normLower tn.content)) := by
  unfold findWordPure findWordInTextNodes
  by_cases h : (strippedOf word).length = 0
  · simp [h]
  · simp only [h, Bool.false_eq_true, if_neg, reduceIte]
    exact (findWordLoop_out word _ _ tns [] (by intro p hp; simp at hp)).1

theorem findWordInTextNodes_out (tns : List TextNode) (word : List Char)
    (c : NodeCache) (h : CacheWF c) :
    (findWordInTextNodes tns word c).1 = findWordPure tns word ∧
    CacheWF (findWordInTextNodes tns word c).2 := by
  unfold findWordInTextNodes
  rw [findWordPure_repr]
  by_cases hz : (strippedOf word).length = 0
  · simp only [hz, reduceIte]
    exact ⟨trivial, h⟩
  · simp only [hz, Bool.false_eq_true, if_neg, reduceIte]
    exact (findWordLoop_out word _ _ tns c h)

theorem mem_wordLocsInLeaf {tn : TextNode} {word st nh nc : List Char}
    {l : WordLocation} (h : l ∈ wordLocsInLeaf tn word st nh nc) :
    ∃ t, t ∈ searchTermsOf st nh ∧ 0 < t.length ∧
      ∃ fi, fi ∈ acceptedAt nc t ∧ l = mkLoc tn word t fi := by
  unfold wordLocsInLeaf at h
  obtain ⟨t, htm, hl⟩ := List.mem_flatMap.mp h
  by_cases hz : t.length = 0
  · rw [if_pos hz] at hl; simp at hl
  · rw [if_neg hz] at hl
    obtain ⟨fi, hfi, hfl⟩ := List.mem_map.mp hl
    exact ⟨t, htm, by omega, fi, hfi, hfl.symm⟩

theorem mem_findWordPure {tns : List TextNode} {word : List Char} {l : WordLocation}
    (h : l ∈ findWordPure tns word) :
    ∃ tn, tn ∈ tns ∧ ∃ t, t ∈ searchTermsOf (strippedOf word) (noHyphenOf (strippedOf word)) ∧
      0 < t.length ∧ ∃ fi, fi ∈ acceptedAt (normLower tn.content) t ∧ l = mkLoc tn word t fi := by
  rw [findWordPure_repr] at h
  by_cases hz : (strippedOf word).length = 0
  · rw [if_pos hz] at h; simp at h
  · rw [if_neg hz] at h
    obtain ⟨tn, htn, hl⟩ := List.mem_flatMap.mp h
    obtain ⟨t, htm, hlen, fi, hfi, hval⟩ := mem_wordLocsInLeaf hl
    exact ⟨tn, htn, t, htm, hlen, fi, hfi, hval⟩

/-! ## Whitespace-free inputs stay whitespace-free through normalization -/

theorem dropWhileAllNeg (p : Char → Bool) (l : List Char)
    (h : ∀ c ∈ l, p c = false) : l.dropWhile p = l := by
  cases l with
  | nil => rfl
  | cons c cs =>
    rw [List.dropWhile_cons_of_neg]
    simp [h c (by simp)]

theorem collapse_wsFree (s : List Char) (h : ∀ c ∈ s, isJsWs c = false) :
    collapseWs s = s := by
  induction s with
  | nil => rfl
  | cons c cs ih =>
    rw [collapseWs_cons, if_neg (by simp [h c (by simp)]),
      ih (fun b hb => h b (List.mem_cons_of_mem _ hb))]

theorem trim_wsFree (s : List Char) (h : ∀ c ∈ s, isJsWs c = false) :
    trimWs s = s := by
  unfold trimWs
  rw [dropWhileAllNeg _ _ h,
    dropWhileAllNeg _ _ (fun c hc => h c (List.mem_reverse.mp hc)),
    List.reverse_reverse]

theorem normLower_wsFree (w : List Char) (h : ∀ c ∈ w, isJsWs c = false) :
    ∀ c ∈ normLower w, isJsWs c = false := by
  unfold normLower
  have hm : ∀ c ∈ (((w.map replQuote1).map replQuote2).map replDash).map replArrow,
      isJsWs c = false := by
    intro c hc
    simp only [List.map_map] at hc
    obtain ⟨b, hb, hbc⟩ := List.mem_map.mp hc
    rw [← hbc]
    show isJsWs (replArrow (replDash (replQuote2 (replQuote1 b)))) = false
    rw [isJsWs_replArrow, isJsWs_replDash, isJsWs_replQuote2, isJsWs_replQuote1]
    exact h b hb
  have hnorm : ∀ c ∈ normalizeText w, isJsWs c = false := by
    unfold normalizeText
    rw [collapse_wsFree _ hm, trim_wsFree _ hm]
    exact hm
  intro c hc
  obtain ⟨b, hb, hcb⟩ := List.mem_flatMap.mp hc
  unfold lowerJS at hcb
  by_cases hI : b = '\u0130'
  · rw [if_pos hI] at hcb
    rcases List.mem_cons.mp hcb with he | he
    · rw [he]; decide
    · rw [List.mem_singleton.mp he]; decide
  · rw [if_neg hI] at hcb
    rw [List.mem_singleton.mp hcb, isJsWs_lowerChar]
    exact hnorm b hb

theorem strippedOf_classFree (w : List Char) (h : ∀ c ∈ w, isJsWs c = false) :
    ∀ c ∈ strippedOf w, wsPunctTest c = false := by
  intro c hc
  unfold strippedOf at hc
  obtain ⟨hmem, hpn⟩ := List.mem_filter.mp hc
  have hws := normLower_wsFree w h c hmem
  simp at hpn
  unfold wsPunctTest
  rw [hws, hpn]
  rfl

theorem searchTerms_classFree (w : List Char) (h : ∀ c ∈ w, isJsWs c = false) :
    ∀ t ∈ searchTermsOf (strippedOf w) (noHyphenOf (strippedOf w)),
      ∀ c ∈ t, wsPunctTest c = false := by
  intro t ht c hc
  unfold searchTermsOf at ht
  rcases List.mem_cons.mp ht with h1 | h1
  · exact strippedOf_classFree w h c (h1 ▸ hc)
  · by_cases hcond : strippedOf w ≠ noHyphenOf (strippedOf w) ∧ 0 < (noHyphenOf (strippedOf w)).length
    · rw [if_pos hcond] at h1
      rw [List.mem_singleton.mp h1] at hc
      unfold noHyphenOf at hc
      exact strippedOf_classFree w h c (List.mem_filter.mp hc).1
    · rw [if_neg hcond] at h1
      simp at h1

theorem extractWordsF_wsFree (fuel : Nat) :
    ∀ (s : List Char) (i : Nat), ∀ p ∈ extractWordsF fuel s i, ∀ c ∈ p.1, isJsWs c = false := by
  induction fuel with
  | zero => intro s i p hp; simp [extractWordsF] at hp
  | succ fuel ih =>
    intro s i p hp
    cases s with
    | nil => simp [extractWordsF] at hp
    | cons c cs =>
      simp only [extractWordsF] at hp
      by_cases hws : isJsWs c
      · rw [if_pos hws] at hp
        exact ih cs (i + 1) p hp
      · rw [if_neg hws] at hp
        rcases List.mem_cons.mp hp with h1 | h1
        · intro b hb
          rw [h1] at hb
          simp only at hb
          rcases List.mem_cons.mp hb with h2 | h2
          · rw [h2]; simpa using hws
          · have := List.mem_takeWhile_imp h2
            simpa using this
        · exact ih _ _ p h1

theorem extractWords_wsFree (s : List Char) :
    ∀ p ∈ extractWords s, ∀ c ∈ p.1, isJsWs c = false :=
  extractWordsF_wsFree s.length s 0

/-! ## Collector facts: fresh strictly-increasing ids, nonempty ancestry -/

theorem collectList_facts (ancs : List DomElement) (nid : Nat) (f : DomForest) :
    nid ≤ (collectList ancs nid f).2 ∧
    (∀ tn ∈ (collectList ancs nid f).1,
       nid ≤ tn.id ∧ tn.id < (collectList ancs nid f).2 ∧ tn.ancestors ≠ []) ∧
    (collectList ancs nid f).1.Pairwise (fun a b => a.id < b.id) := by
  cases f with
  | nil => exact ⟨Nat.le_refl _, by simp [collectList], by simp [collectList]⟩
  | cons hd rest =>
    cases hd with
    | text content =>
      cases ancs with
      | nil =>
        simpa only [collectList] using collectList_facts [] nid rest
      | cons parent t =>
        by_cases h1 : parent.tag = "SCRIPT" ∨ parent.tag = "STYLE" ∨ parent.tag = "NOSCRIPT"
        · simpa only [collectList, if_pos h1] using collectList_facts (parent :: t) nid rest
        · by_cases h2 : trimWs content = []
          · simpa only [collectList, if_neg h1, if_pos h2]
              using collectList_facts (parent :: t) nid rest
          · obtain ⟨ih1, ih2, ih3⟩ := collectList_facts (parent :: t) (nid + 1) rest
            simp only [collectList, if_neg h1, if_neg h2]
            refine ⟨by omega, ?_, ?_⟩
            · intro tn htn
              rcases List.mem_cons.mp htn with he | he
              · subst he
                exact ⟨Nat.le_refl _, by show nid < _; omega, by simp⟩
              · obtain ⟨a1, a2, a3⟩ := ih2 tn he
                exact ⟨by omega, a2, a3⟩
            · refine List.Pairwise.cons ?_ ih3
              intro b hb
              obtain ⟨a1, _, _⟩ := ih2 b hb
              simp only
              omega
    | elem tag eid children =>
      obtain ⟨ih1, ih2, ih3⟩ := collectList_facts ({ tag := tag, eid := eid } :: ancs) nid children
      obtain ⟨jh1, jh2, jh3⟩ :=
        collectList_facts ancs (collectList ({ tag := tag, eid := eid } :: ancs) nid children).2 rest
      simp only [collectList]
      refine ⟨by omega, ?_, ?_⟩
      · intro tn htn
        rcases List.mem_append.mp htn with he | he
        · obtain ⟨a1, a2, a3⟩ := ih2 tn he
          exact ⟨a1, by omega, a3⟩
        · obtain ⟨a1, a2, a3⟩ := jh2 tn he
          exact ⟨by omega, a2, a3⟩
      · rw [List.pairwise_append]
        refine ⟨ih3, jh3, ?_⟩
        intro a ha b hb
        obtain ⟨_, a2, _⟩ := ih2 a ha
        obtain ⟨b1, _, _⟩ := jh2 b hb
        omega

theorem getTextNodes_facts (root : DomNode) :
    (∀ tn ∈ getTextNodes root, tn.ancestors ≠ []) ∧
    (getTextNodes root).Pairwise (fun a b => a.id < b.id) := by
  cases root with
  | text content => exact ⟨by simp [getTextNodes], by simp [getTextNodes]⟩
  | elem tag eid children =>
    obtain ⟨_, h2, h3⟩ := collectList_facts [{ tag := tag, eid := eid }] 0 children
    exact ⟨fun tn htn => (h2 tn htn).2.2, h3⟩

theorem collectNodes_facts (body : DomNode) (opts : ScopeOpt) :
    (∀ tn ∈ collectNodes body opts, tn.ancestors ≠ []) ∧
    (collectNodes body opts).Pairwise (fun a b => a.id < b.id) := by
  cases opts with
  | whole => exact getTextNodes_facts body
  | rootElem r => exact getTextNodes_facts r
  | range r p =>
    obtain ⟨h1, h2⟩ := getTextNodes_facts r
    exact ⟨fun tn htn => h1 tn (List.mem_filter.mp htn).1,
      List.Pairwise.filter p h2⟩

theorem collectNodes_id_inj (body : DomNode) (opts : ScopeOpt) {a b : TextNode}
    (ha : a ∈ collectNodes body opts) (hb : b ∈ collectNodes body opts)
    (h : a.id = b.id) : a = b := by
  have hp := (collectNodes_facts body opts).2
  have hnd : ((collectNodes body opts).map TextNode.id).Nodup := by
    exact List.pairwise_map.mpr (List.Pairwise.imp (fun hlt => Nat.ne_of_lt hlt) hp)
  exact List.inj_on_of_nodup_map hnd ha hb h

theorem getContainerElement_mem (tn : TextNode) (h : tn.ancestors ≠ []) :
    getContainerElement tn ∈ tn.ancestors := by
  unfold getContainerElement
  cases hf : tn.ancestors.find? (fun e => meaningfulTags.contains e.tag) with
  | some e => exact List.mem_of_find?_eq_some hf
  | none =>
    cases ha : tn.ancestors with
    | nil => exact absurd ha h
    | cons p t => exact List.mem_cons_self p t

/-! ## Orchestrator invariants: the claim set and the committed locations -/

theorem locateWordsAux_inv (tns : List TextNode) :
    ∀ (ws : List (List Char × Nat)) (cache : NodeCache) (used : List (Nat × Nat × Nat)),
    CacheWF cache →
    CacheWF (locateWordsAux tns ws cache used).2.1 ∧
    (∀ k ∈ used, k ∈ (locateWordsAux tns ws cache used).2.2) ∧
    (∀ l ∈ (locateWordsAux tns ws cache used).1,
       (∃ wp ∈ ws, l ∈ findWordPure tns wp.1) ∧
       locKey l ∉ used ∧ locKey l ∈ (locateWordsAux tns ws cache used).2.2) ∧
    (locateWordsAux tns ws cache used).1.Pairwise (fun a b => locKey a ≠ locKey b) := by
  intro ws
  induction ws with
  | nil =>
    intro cache used h
    exact ⟨h, fun k hk => hk, by simp [locateWordsAux], by simp [locateWordsAux]⟩
  | cons wp rest ih =>
    intro cache used h
    obtain ⟨w, i⟩ := wp
    obtain ⟨hout, hwf⟩ := findWordInTextNodes_out tns w cache h
    simp only [locateWordsAux]
    cases hfind : (findWordInTextNodes tns w cache).1.find?
        (fun m => !(used.contains (locKey m))) with
    | some m =>
      simp only [hfind]
      have hmmem : m ∈ findWordPure tns w := hout ▸ List.mem_of_find?_eq_some hfind
      have hmkey : locKey m ∉ used := by
        have := List.find?_some hfind
        simp at this
        simpa using this
      obtain ⟨ih1, ih2, ih3, ih4⟩ :=
        ih (findWordInTextNodes tns w cache).2 (locKey m :: used) hwf
      refine ⟨ih1, ?_, ?_, ?_⟩
      · intro k hk
        exact ih2 k (List.mem_cons_of_mem _ hk)
      · intro l hl
        rcases List.mem_cons.mp hl with he | he
        · subst he
          exact ⟨⟨(w, i), List.mem_cons_self _ _, hmmem⟩, hmkey,
            ih2 (locKey l) (List.mem_cons_self _ _)⟩
        · obtain ⟨⟨wq, hwq, hfp⟩, hnk, hik⟩ := ih3 l he
          exact ⟨⟨wq, List.mem_cons_of_mem _ hwq, hfp⟩,
            fun hc => hnk (List.mem_cons_of_mem _ hc), hik⟩
      · refine List.Pairwise.cons ?_ ih4
        intro b hb
        obtain ⟨_, hnk, _⟩ := ih3 b hb
        intro hckey
        exact hnk (hckey ▸ List.mem_cons_self _ _)
    | none =>
      simp only [hfind]
      obtain ⟨ih1, ih2, ih3, ih4⟩ := ih (findWordInTextNodes tns w cache).2 used hwf
      refine ⟨ih1, ih2, ?_, ih4⟩
      intro l hl
      obtain ⟨⟨wq, hwq, hfp⟩, hnk, hik⟩ := ih3 l hl
      exact ⟨⟨wq, List.mem_cons_of_mem _ hwq, hfp⟩, hnk, hik⟩

theorem locateSentencesAux_inv (tns : List TextNode) :
    ∀ (ss : List GPTZeroSentence) (cache : NodeCache) (used : List (Nat × Nat × Nat)),
    CacheWF cache →
    (∀ l ∈ flatLocs (locateSentencesAux tns ss cache used),
       (∃ s ∈ ss, ∃ wp ∈ extractWords s.sentence, l ∈ findWordPure tns wp.1) ∧
       locKey l ∉ used) ∧
    (flatLocs (locateSentencesAux tns ss cache used)).Pairwise
      (fun a b => locKey a ≠ locKey b) := by
  intro ss
  induction ss with
  | nil =>
    intro cache used h
    exact ⟨by simp [locateSentencesAux, flatLocs], by simp [locateSentencesAux, flatLocs]⟩
  | cons s rest ih =>
    intro cache used h
    obtain ⟨wh1, wh2, wh3, wh4⟩ :=
      locateWordsAux_inv tns (extractWords s.sentence) cache used h
    obtain ⟨ih1, ih2⟩ :=
      ih (locateWordsAux tns (extractWords s.sentence) cache used).2.1
        (locateWordsAux tns (extractWords s.sentence) cache used).2.2 wh1
    have hfl : flatLocs (locateSentencesAux tns (s :: rest) cache used)
        = (locateWordsAux tns (extractWords s.sentence) cache used).1
          ++ flatLocs (locateSentencesAux tns rest
              (locateWordsAux tns (extractWords s.sentence) cache used).2.1
              (locateWordsAux tns (extractWords s.sentence) cache used).2.2) := by
      simp [locateSentencesAux, flatLocs]
    rw [hfl]
    constructor
    · intro l hl
      rcases List.mem_append.mp hl with he | he
      · obtain ⟨⟨wq, hwq, hfp⟩, hnk, _⟩ := wh3 l he
        exact ⟨⟨s, List.mem_cons_self _ _, wq, hwq, hfp⟩, hnk⟩
      · obtain ⟨⟨sq, hsq, wq, hwq, hfp⟩, hnk⟩ := ih1 l he
        exact ⟨⟨sq, List.mem_cons_of_mem _ hsq, wq, hwq, hfp⟩,
          fun hc => hnk (wh2 _ hc)⟩
    · rw [List.pairwise_append]
      refine ⟨wh4, ih2, ?_⟩
      intro a ha b hb
      obtain ⟨_, _, hak⟩ := wh3 a ha
      obtain ⟨_, hbk⟩ := ih1 b hb
      intro hc
      exact hbk (hc ▸ hak)

/-! ## The claims -/

/-- C1 (amended): the claimed universal span non-overlap is false of the
program -- lowercasing U+0130 lengthens the normalized content, which
desynchronizes the offset walks and lets overlapping spans be committed on
one leaf (see the counterexample below).  What the code does guarantee:
for every call whose collected leaf contents contain no U+0130, no two
committed locations on one leaf have overlapping
`[startOffset, endOffset)` ranges -- genuine span non-overlap through the
claim set, not merely the absence of identical triples. -/
theorem claim_C1 (body : DomNode) (sentences : List GPTZeroSentence) (opts : ScopeOpt)
    (hI : ∀ tn ∈ collectNodes body opts, ¬ '\u0130' ∈ tn.content) :
    (flatLocs (locateSentences body sentences opts)).Pairwise
      (fun l1 l2 => l1.textNode.id = l2.textNode.id →
        l1.endOffset ≤ l2.startOffset ∨ l2.endOffset ≤ l1.startOffset) := by
  obtain ⟨hmem, hpw⟩ :=
    locateSentencesAux_inv (collectNodes body opts) sentences [] []
      (by intro p hp; simp at hp)
  unfold locateSentences
  refine List.Pairwise.imp_of_mem ?_ hpw
  intro l1 l2 h1 h2 hkne hid
  obtain ⟨⟨s1, hs1, wp1, hwp1, hfp1⟩, _⟩ := hmem l1 h1
  obtain ⟨⟨s2, hs2, wp2, hwp2, hfp2⟩, _⟩ := hmem l2 h2
  obtain ⟨tn1, htn1, t1, ht1m, ht1len, fi1, hfi1, hl1⟩ := mem_findWordPure hfp1
  obtain ⟨tn2, htn2, t2, ht2m, ht2len, fi2, hfi2, hl2⟩ := mem_findWordPure hfp2
  have htc1 := searchTerms_classFree wp1.1 (extractWords_wsFree s1.sentence wp1 hwp1) t1 ht1m
  have htc2 := searchTerms_classFree wp2.1 (extractWords_wsFree s2.sentence wp2 hwp2) t2 ht2m
  subst hl1
  subst hl2
  simp only [mkLoc] at hid
  have htneq : tn1 = tn2 := collectNodes_id_inj body opts htn1 htn2 hid
  subst htneq
  rw [normLower_decomp _ (hI tn1 htn1)] at hfi1 hfi2
  by_cases hsame : fi1 = fi2 ∧ t1.length = t2.length
  · exfalso
    apply hkne
    obtain ⟨hf, ht⟩ := hsame
    simp [locKey, mkLoc, hf, ht]
  · have hd := spanDisjoint tn1.content t1 t2 fi1 fi2 ht1len ht2len htc1 htc2 hfi1 hfi2 hsame
    simp only [mkLoc, Nat.zero_max]
    exact hd

/-! ## Spec-side reference definitions and concrete instances -/

/-- The spec's selection rule: the first candidate whose location key is
not yet claimed. -/
def specSelect (cands : List WordLocation) (used : List (Nat × Nat × Nat)) :
    Option WordLocation :=
  cands.find? (fun m => !(used.contains (locKey m)))

/-- The spec's word loop, written from its words: per token in order, take
the first unclaimed candidate of the (cache-free) Word Matcher, claim it,
append it; otherwise skip the word silently. -/
def specWordsRun (tns : List TextNode) :
    List (List Char × Nat) → List (Nat × Nat × Nat) →
    List WordLocation × List (Nat × Nat × Nat)
  | [], used => ([], used)
  | (w, _) :: ws, used =>
    match specSelect (findWordPure tns w) used with
    | some m =>
      let out := specWordsRun tns ws (locKey m :: used)
      (m :: out.1, out.2)
    | none => specWordsRun tns ws used

/-- The spec's sentence loop: sentences in order, claim set threaded
through. -/
def specSentencesRun (tns : List TextNode) :
    List GPTZeroSentence → List (Nat × Nat × Nat) → List SentenceWithLocations
  | [], _ => []
  | s :: ss, used =>
    let out := specWordsRun tns (extractWords s.sentence) used
    { sentence := s.sentence, generated_prob := s.generated_prob, locations := out.1 }
      :: specSentencesRun tns ss out.2

/-- The spec's single substitution table for `normalize`, one character at
a time. -/
def normSpecChar (c : Char) : Char :=
  if c = '‘' ∨ c = '’' then '\''
  else if c = '“' ∨ c = '”' then '"'
  else if c = '–' ∨ c = '—' then '-'
  else if c = '→' then '-'
  else c

/-- The spec's `normalize`: the substitution table, then whitespace-run
collapsing, then trimming. -/
def normSpec (s : List Char) : List Char :=
  trimWs (collapseWs (s.map normSpecChar))

/-- Erase the echoed `word` field, for statements comparing everything the
matcher computed from the text. -/
def wipeWord (l : WordLocation) : WordLocation :=
  { l with word := [] }

/-- Lowercase and strip the whitespace-or-punctuation class (the claim's
reading of "lowercased and stripped"). -/
def lowStrip (s : List Char) : List Char :=
  (s.map lowerChar).filter (fun c => !(wsPunctTest c))

/-- Substring containment on character lists: `a` occurs contiguously in
`b`. -/
def substrCheck (a b : List Char) : Bool :=
  (List.range (b.length + 1)).any (fun i => a.isPrefixOf (b.drop i))

/-- The original text a location covers:
`leaf.content.substring(startOffset, endOffset)`. -/
def extractionOf (l : WordLocation) : List Char :=
  (l.textNode.content.drop l.startOffset).take (l.endOffset - l.startOffset)

def demoBody : DomNode :=
  DomNode.elem "BODY" 0 (DomForest.ofList
    [DomNode.elem "P" 1 (DomForest.ofList [DomNode.text "The cat sat".data])])

def demoSents : List GPTZeroSentence :=
  [{ sentence := "cat".data, generated_prob := 1 }]

def demoSents2 : List GPTZeroSentence :=
  [{ sentence := "cat sat".data, generated_prob := 1 }]

def demoLoc : WordLocation :=
  { word := "cat".data
    textNode := { id := 0, content := "The cat sat".data
                  ancestors := [{ tag := "P", eid := 1 }, { tag := "BODY", eid := 0 }] }
    startOffset := 4
    endOffset := 7
    containerElement := { tag := "P", eid := 1 } }

def demoRes : SentenceWithLocations :=
  { sentence := "cat".data, generated_prob := 1, locations := [demoLoc] }

def cexBody : DomNode :=
  DomNode.elem "BODY" 0 (DomForest.ofList
    [DomNode.elem "P" 1 (DomForest.ofList [DomNode.text "Read more →".data])])

def cexSents : List GPTZeroSentence :=
  [{ sentence := "-".data, generated_prob := 0 }]

def cexLoc : WordLocation :=
  { word := "-".data
    textNode := { id := 0, content := "Read more →".data
                  ancestors := [{ tag := "P", eid := 1 }, { tag := "BODY", eid := 0 }] }
    startOffset := 10
    endOffset := 11
    containerElement := { tag := "P", eid := 1 } }

def cexRes : SentenceWithLocations :=
  { sentence := "-".data, generated_prob := 0, locations := [cexLoc] }

def leafCate : TextNode :=
  { id := 0, content := "cate".data, ancestors := [{ tag := "P", eid := 1 }] }

def leafGory : TextNode :=
  { id := 1, content := "gory".data, ancestors := [{ tag := "P", eid := 1 }] }

def leafCat : TextNode :=
  { id := 0, content := "cat".data, ancestors := [{ tag := "P", eid := 1 }] }

def leafEgory : TextNode :=
  { id := 1, content := "egory".data, ancestors := [{ tag := "P", eid := 1 }] }

def catLoc : WordLocation :=
  { word := "cat".data
    textNode := leafCat
    startOffset := 0
    endOffset := 3
    containerElement := { tag := "P", eid := 1 } }

def wkLeaf : TextNode :=
  { id := 0, content := "a well-known fact".data, ancestors := [{ tag := "P", eid := 1 }] }

def c1Body : DomNode :=
  DomNode.elem "BODY" 0 (DomForest.ofList
    [DomNode.elem "P" 1 (DomForest.ofList [DomNode.text "İİİİİ       ab".data])])

def c1Sents : List GPTZeroSentence :=
  [{ sentence := "İİİİİ ab".data, generated_prob := 1 }]

def c3Body : DomNode :=
  DomNode.elem "BODY" 0 (DomForest.ofList
    [DomNode.elem "P" 1 (DomForest.ofList [DomNode.text "İİİİ x".data])])

def c3Sents : List GPTZeroSentence :=
  [{ sentence := "x".data, generated_prob := 1 }]

/-! ## Bridging lemmas for the claims -/

theorem replChar_eq_normSpecChar (c : Char) : replChar c = normSpecChar c := by
  unfold replChar normSpecChar replQuote1 replQuote2 replDash replArrow
  by_cases h1 : c = '‘'
  · subst h1; decide
  by_cases h2 : c = '’'
  · subst h2; decide
  by_cases h3 : c = '“'
  · subst h3; decide
  by_cases h4 : c = '”'
  · subst h4; decide
  by_cases h5 : c = '–'
  · subst h5; decide
  by_cases h6 : c = '—'
  · subst h6; decide
  by_cases h7 : c = '→'
  · subst h7; decide
  have e1 : (if c = '‘' ∨ c = '’' then '\'' else c) = c := if_neg (by tauto)
  rw [e1]
  have e2 : (if c = '“' ∨ c = '”' then '"' else c) = c := if_neg (by tauto)
  rw [e2]
  have e3 : (if c = '–' ∨ c = '—' then '-' else c) = c := if_neg (by tauto)
  rw [e3]
  have e4 : (if c = '→' then '-' else c) = c := if_neg h7
  rw [e4, e3, e2, e1]

theorem locateWordsAux_spec (tns : List TextNode) :
    ∀ (ws : List (List Char × Nat)) (cache : NodeCache) (used : List (Nat × Nat × Nat)),
    CacheWF cache →
    (locateWordsAux tns ws cache used).1 = (specWordsRun tns ws used).1 ∧
    (locateWordsAux tns ws cache used).2.2 = (specWordsRun tns ws used).2 ∧
    CacheWF (locateWordsAux tns ws cache used).2.1 := by
  intro ws
  induction ws with
  | nil =>
    intro cache used h
    exact ⟨rfl, rfl, h⟩
  | cons wp rest ih =>
    intro cache used h
    obtain ⟨w, i⟩ := wp
    obtain ⟨hout, hwf⟩ := findWordInTextNodes_out tns w cache h
    simp only [locateWordsAux, specWordsRun, specSelect, hout]
    cases hfind : (findWordPure tns w).find? (fun m => !(used.contains (locKey m))) with
    | some m =>
      simp only [hfind]
      obtain ⟨ih1, ih2, ih3⟩ := ih (findWordInTextNodes tns w cache).2 (locKey m :: used) hwf
      exact ⟨by rw [ih1], ih2, ih3⟩
    | none =>
      simp only [hfind]
      exact ih (findWordInTextNodes tns w cache).2 used hwf

theorem locateSentencesAux_spec (tns : List TextNode) :
    ∀ (ss : List GPTZeroSentence) (cache : NodeCache) (used : List (Nat × Nat × Nat)),
    CacheWF cache →
    locateSentencesAux tns ss cache used = specSentencesRun tns ss used := by
  intro ss
  induction ss with
  | nil => intro cache used h; rfl
  | cons s rest ih =>
    intro cache used h
    obtain ⟨h1, h2, h3⟩ := locateWordsAux_spec tns (extractWords s.sentence) cache used h
    simp only [locateSentencesAux, specSentencesRun]
    rw [h1, h2, ih _ _ h3]

theorem locateSentencesAux_shape (tns : List TextNode) :
    ∀ (ss : List GPTZeroSentence) (cache : NodeCache) (used : List (Nat × Nat × Nat)),
    (locateSentencesAux tns ss cache used).map (fun r => (r.sentence, r.generated_prob))
      = ss.map (fun s => (s.sentence, s.generated_prob)) := by
  intro ss
  induction ss with
  | nil => intro cache used; rfl
  | cons s rest ih =>
    intro cache used
    simp only [locateSentencesAux, List.map_cons]
    rw [ih]

theorem isPrefixOfFilter (p : Char → Bool) :
    ∀ (a b : List Char), a.isPrefixOf b = true →
      (a.filter p).isPrefixOf (b.filter p) = true := by
  intro a
  induction a with
  | nil => intro b h; simp
  | cons c cs ih =>
    intro b h
    cases b with
    | nil => simp at h
    | cons d ds =>
      have h' : (c == d && cs.isPrefixOf ds) = true := h
      simp only [Bool.and_eq_true, beq_iff_eq] at h'
      obtain ⟨he, hrest⟩ := h'
      subst he
      by_cases hp : p c
      · rw [List.filter_cons_of_pos hp, List.filter_cons_of_pos hp]
        show (c == c && (cs.filter p).isPrefixOf (ds.filter p)) = true
        simp [ih ds hrest]
      · rw [List.filter_cons_of_neg (by simpa using hp),
          List.filter_cons_of_neg (by simpa using hp)]
        exact ih ds hrest

theorem delHyphen_noHyphen (s : List Char) : delHyphen (noHyphenOf s) = noHyphenOf s := by
  unfold delHyphen noHyphenOf
  rw [List.filter_filter]
  simp

theorem flatMapMapCongr {α β γ : Type} (g : β → γ) (f1 f2 : α → List β)
    (h : ∀ a, (f1 a).map g = (f2 a).map g) :
    ∀ l : List α, (l.flatMap f1).map g = (l.flatMap f2).map g := by
  intro l
  induction l with
  | nil => rfl
  | cons a as ih => simp only [List.flatMap_cons, List.map_append, h a, ih]

theorem findWordInTextNodes_nilNodes (w : List Char) (cache : NodeCache) :
    (findWordInTextNodes [] w cache).1 = [] := by
  unfold findWordInTextNodes
  by_cases h : (strippedOf w).length = 0
  · simp [h]
  · simp only [h, reduceIte]
    rfl

theorem locateWordsAux_nilNodes :
    ∀ (ws : List (List Char × Nat)) (cache : NodeCache) (used : List (Nat × Nat × Nat)),
    (locateWordsAux [] ws cache used).1 = [] := by
  intro ws
  induction ws with
  | nil => intro cache used; rfl
  | cons wp rest ih =>
    intro cache used
    obtain ⟨w, i⟩ := wp
    simp only [locateWordsAux]
    rw [findWordInTextNodes_nilNodes w cache]
    simp only [List.find?_nil]
    exact ih _ _

theorem locateSentencesAux_nilNodes :
    ∀ (ss : List GPTZeroSentence) (cache : NodeCache) (used : List (Nat × Nat × Nat)),
    ∀ r ∈ locateSentencesAux [] ss cache used, r.locations = [] := by
  intro ss
  induction ss with
  | nil => intro cache used r hr; simp [locateSentencesAux] at hr
  | cons s rest ih =>
    intro cache used r hr
    simp only [locateSentencesAux] at hr
    rcases List.mem_cons.mp hr with he | he
    · subst he
      exact locateWordsAux_nilNodes (extractWords s.sentence) cache used
    · exact ih _ _ r he

theorem locateSentencesAux_emptySentence (tns : List TextNode) :
    ∀ (ss : List GPTZeroSentence) (cache : NodeCache) (used : List (Nat × Nat × Nat)),
    ∀ r ∈ locateSentencesAux tns ss cache used, r.sentence = [] → r.locations = [] := by
  intro ss
  induction ss with
  | nil => intro cache used r hr; simp [locateSentencesAux] at hr
  | cons s rest ih =>
    intro cache used r hr hsent
    simp only [locateSentencesAux] at hr
    rcases List.mem_cons.mp hr with he | he
    · subst he
      simp only at hsent ⊢
      rw [hsent]
      rfl
    · exact ih _ _ r he hsent

/-- C1, counterexample to the claim as stated: a leaf of five U+0130
followed by a whitespace run and `ab`, with the sentence `İİİİİ ab`.  The
first word's search term is ten normalized units but covers only five
original characters, so its end walk overshoots through the space run and
consumes `ab`, committing span `[0, 14)`; the second word's start walk
exhausts the original and falls back to the normalized index, committing
span `[11, 14)` on the same leaf.  The two committed ranges overlap. -/
theorem claim_C1_cex :
    ¬ (flatLocs (locateSentences c1Body c1Sents ScopeOpt.whole)).Pairwise
      (fun l1 l2 => l1.textNode.id = l2.textNode.id →
        l1.endOffset ≤ l2.startOffset ∨ l2.endOffset ≤ l1.startOffset) := by
  decide

theorem claim_C1_witness :
    (flatLocs (locateSentences demoBody demoSents2 ScopeOpt.whole)).Pairwise
      (fun l1 l2 => l1.textNode.id = l2.textNode.id →
        l1.endOffset ≤ l2.startOffset ∨ l2.endOffset ≤ l1.startOffset) :=
  claim_C1 demoBody demoSents2 ScopeOpt.whole (by decide)

/-- C2 (amended): the spec's extraction-containment claim is false as
stated (see the counterexample below: the arrow glyph is normalized to a
hyphen on the word side but survives unchanged in the original text, so the
lowercased-and-stripped extraction need not relate to the stripped word by
substring containment in either direction).  What the code does guarantee:
putting the extraction through the full normalization table
(substitutions, lowercasing) and stripping the whitespace/punctuation
class, then deleting hyphens on both sides, the extraction is a prefix —
in particular a substring — of the hyphen-free stripped word, for every
call whose collected leaf contents contain no U+0130 (lowercasing U+0130
lengthens the normalized content and desynchronizes the end walk, breaking
even this weakened containment). -/
theorem claim_C2 (body : DomNode) (sents : List GPTZeroSentence) (opts : ScopeOpt)
    (hI : ∀ tn ∈ collectNodes body opts, ¬ '\u0130' ∈ tn.content) :
    ∀ r ∈ locateSentences body sents opts, ∀ l ∈ r.locations,
      (delHyphen (((extractionOf l).filter
          (fun b => !(wsPunctTest (normChar b)))).map normChar)).isPrefixOf
        (noHyphenOf (strippedOf l.word)) = true := by
  intro r hr l hl
  obtain ⟨hmem, _⟩ :=
    locateSentencesAux_inv (collectNodes body opts) sents [] []
      (by intro p hp; simp at hp)
  have hfl : l ∈ flatLocs (locateSentencesAux (collectNodes body opts) sents [] []) := by
    unfold locateSentences at hr
    exact List.mem_flatMap.mpr ⟨r, hr, hl⟩
  obtain ⟨⟨s, hs, wp, hwp, hfp⟩, _⟩ := hmem l hfl
  obtain ⟨tn, htn, t, htm, htl, fi, hfi, hleq⟩ := mem_findWordPure hfp
  have htc := searchTerms_classFree wp.1 (extractWords_wsFree s.sentence wp hwp) t htm
  subst hleq
  rw [normLower_decomp _ (hI tn htn)] at hfi
  obtain ⟨hs1, hlt2, hle3, hpre⟩ := spanCore tn.content t fi htl htc hfi
  simp only [mkLoc, extractionOf, Nat.zero_max]
  have hfiltered := isPrefixOfFilter (fun c => !(c = '-')) _ _ hpre
  have hdel : (delHyphen ((((tn.content.drop (actualStartOf tn.content fi)).take
      (min (endWalk tn.content t.length (actualStartOf tn.content fi) 0) tn.content.length
        - actualStartOf tn.content fi)).filter
      (fun b => !(wsPunctTest (normChar b)))).map normChar)).isPrefixOf
      (delHyphen t) = true := hfiltered
  have hteq : delHyphen t = noHyphenOf (strippedOf wp.1) := by
    unfold searchTermsOf at htm
    rcases List.mem_cons.mp htm with he | he
    · rw [he]
      rfl
    · by_cases hcond : strippedOf wp.1 ≠ noHyphenOf (strippedOf wp.1) ∧
          0 < (noHyphenOf (strippedOf wp.1)).length
      · rw [if_pos hcond] at he
        rw [List.mem_singleton.mp he]
        exact delHyphen_noHyphen _
      · rw [if_neg hcond] at he
        simp at he
  rw [hteq] at hdel
  exact hdel

/-- C2, counterexample to the claim as stated: in a document whose leaf
text ends in a rightwards arrow, the word `-` is located over the arrow
(the normalization maps the arrow to a hyphen), and the extracted original
text, lowercased and stripped of the whitespace/punctuation class, is the
arrow itself: it neither contains nor is contained in the equivalently
stripped normalized word `-`. -/
theorem claim_C2_cex :
    ∃ r ∈ locateSentences cexBody cexSents ScopeOpt.whole, ∃ l ∈ r.locations,
      substrCheck (lowStrip (extractionOf l)) (lowStrip (normalizeText l.word)) = false ∧
      substrCheck (lowStrip (normalizeText l.word)) (lowStrip (extractionOf l)) = false := by
  decide

theorem claim_C2_witness :
    (delHyphen (((extractionOf cexLoc).filter
        (fun b => !(wsPunctTest (normChar b)))).map normChar)).isPrefixOf
      (noHyphenOf (strippedOf cexLoc.word)) = true :=
  claim_C2 cexBody cexSents ScopeOpt.whole (by decide) cexRes (by decide) cexLoc (by decide)

/-- C3 (amended): the claimed bounds are false of the program in general —
lowercasing U+0130 lengthens the normalized content, the start walk can
exhaust the original and fall back to the normalized index, and the code
then pushes `startOffset > endOffset` (see the counterexample below).
What the code does guarantee: for every call whose collected leaf contents
contain no U+0130, every committed location satisfies
`0 ≤ startOffset < endOffset ≤ leaf content length`, and the container
element is an ancestor of the leaf through its parent chain. -/
theorem claim_C3 (body : DomNode) (sents : List GPTZeroSentence) (opts : ScopeOpt)
    (hI : ∀ tn ∈ collectNodes body opts, ¬ '\u0130' ∈ tn.content) :
    ∀ r ∈ locateSentences body sents opts, ∀ l ∈ r.locations,
      l.startOffset < l.endOffset ∧ l.endOffset ≤ l.textNode.content.length ∧
      l.containerElement ∈ l.textNode.ancestors := by
  intro r hr l hl
  obtain ⟨hmem, _⟩ :=
    locateSentencesAux_inv (collectNodes body opts) sents [] []
      (by intro p hp; simp at hp)
  have hfl : l ∈ flatLocs (locateSentencesAux (collectNodes body opts) sents [] []) := by
    unfold locateSentences at hr
    exact List.mem_flatMap.mpr ⟨r, hr, hl⟩
  obtain ⟨⟨s, hs, wp, hwp, hfp⟩, _⟩ := hmem l hfl
  obtain ⟨tn, htn, t, htm, htl, fi, hfi, hleq⟩ := mem_findWordPure hfp
  have htc := searchTerms_classFree wp.1 (extractWords_wsFree s.sentence wp hwp) t htm
  subst hleq
  rw [normLower_decomp _ (hI tn htn)] at hfi
  obtain ⟨hs1, hlt2, _, _⟩ := spanCore tn.content t fi htl htc hfi
  have hanc : tn.ancestors ≠ [] := (collectNodes_facts body opts).1 tn htn
  refine ⟨?_, ?_, ?_⟩
  · simp only [mkLoc, Nat.zero_max]
    rw [← hs1] at hlt2
    exact hlt2
  · simp only [mkLoc]
    exact Nat.min_le_right _ _
  · simp only [mkLoc]
    exact getContainerElement_mem tn hanc

theorem claim_C3_witness :
    demoLoc.startOffset < demoLoc.endOffset ∧
    demoLoc.endOffset ≤ demoLoc.textNode.content.length ∧
    demoLoc.containerElement ∈ demoLoc.textNode.ancestors :=
  claim_C3 demoBody demoSents ScopeOpt.whole (by decide) demoRes (by decide) demoLoc (by decide)

/-- C3, counterexample to the claim as stated: a leaf `İİİİ x` with the
word `x`.  In the lengthened normalized content the match index is 9; the
start walk exhausts the six-character original and falls back to
`startOffset = 9`, while the end walk starts past the end and the final
clamp gives `endOffset = min 9 6 = 6`: the committed location has
`startOffset > endOffset`. -/
theorem claim_C3_cex :
    ∃ r ∈ locateSentences c3Body c3Sents ScopeOpt.whole, ∃ l ∈ r.locations,
      ¬ (l.startOffset < l.endOffset) := by
  decide

/-- C4: `locateSentences` equals the spec-shaped reference run: sentences
in order, tokens in order, each word committing exactly the first Word
Matcher candidate whose `(leaf id, startOffset, endOffset)` triple is not
yet claimed (adding it to the claim set), and contributing nothing when all
candidates are claimed or there are none. -/
theorem claim_C4 (body : DomNode) (sents : List GPTZeroSentence) (opts : ScopeOpt) :
    locateSentences body sents opts = specSentencesRun (collectNodes body opts) sents [] := by
  unfold locateSentences
  exact locateSentencesAux_spec (collectNodes body opts) sents [] []
    (by intro p hp; simp at hp)

/-- C5: one result per input sentence, in order, with the `sentence` and
`generated_prob` fields passed through unmodified. -/
theorem claim_C5 (body : DomNode) (sents : List GPTZeroSentence) (opts : ScopeOpt) :
    (locateSentences body sents opts).length = sents.length ∧
    (locateSentences body sents opts).map (fun r => (r.sentence, r.generated_prob))
      = sents.map (fun s => (s.sentence, s.generated_prob)) := by
  have h := locateSentencesAux_shape (collectNodes body opts) sents [] []
  constructor
  · unfold locateSentences
    calc (locateSentencesAux (collectNodes body opts) sents [] []).length
        = ((locateSentencesAux (collectNodes body opts) sents [] []).map
            (fun r => (r.sentence, r.generated_prob))).length := (List.length_map _ _).symm
      _ = (sents.map (fun s => (s.sentence, s.generated_prob))).length := by rw [h]
      _ = sents.length := List.length_map _ _
  · exact h

/-- C6: every accepted occurrence satisfies the word-boundary condition —
the normalized character just before and just after the match either does
not exist (the match is flush with the leaf's start or end) or belongs to
the whitespace-or-punctuation class; in particular `cat` never matches
inside `category`. -/
theorem claim_C6 :
    (∀ (nc t : List Char) (fi : Nat), fi ∈ acceptedAt nc t →
       (fi = 0 ∨ wsPunctTest (nc.getD (fi - 1) ' ') = true) ∧
       (fi + t.length = nc.length ∨ wsPunctTest (nc.getD (fi + t.length) ' ') = true)) ∧
    acceptedAt "category".data "cat".data = [] :=
  ⟨fun _ _ _ hfi => acceptedAt_boundary hfi, by decide⟩

theorem claim_C6_witness :
    ((2 : Nat) = 0 ∨ wsPunctTest (("a cat".data).getD (2 - 1) ' ') = true) ∧
    (2 + ("cat".data).length = ("a cat".data).length ∨
      wsPunctTest (("a cat".data).getD (2 + ("cat".data).length) ' ') = true) :=
  claim_C6.1 "a cat".data "cat".data 2 (by decide)

/-- C7: within one leaf and one search term of the matcher's pipeline
(terms are stripped words of whitespace-free tokens), the accepted
occurrences are pairwise non-overlapping intervals of the normalized
content. -/
theorem claim_C7 (word : List Char) (hw : ∀ c ∈ word, isJsWs c = false)
    (nc t : List Char)
    (ht : t ∈ searchTermsOf (strippedOf word) (noHyphenOf (strippedOf word)))
    (htl : 0 < t.length) :
    (acceptedAt nc t).Pairwise (fun i j => i + t.length ≤ j ∨ j + t.length ≤ i) := by
  have htc := searchTerms_classFree word hw t ht
  have hsorted : (acceptedAt nc t).Pairwise (fun i j => i < j) :=
    List.Pairwise.filter _ (scanFrom_sorted nc t 0)
  refine List.Pairwise.imp_of_mem ?_ hsorted
  intro i j hi hj hlt
  exact Or.inl (Nat.le_of_lt (gapAux hi hj htl htl htc htc hlt))

theorem claim_C7_witness :
    (acceptedAt "cat cat".data "cat".data).Pairwise
      (fun i j => i + ("cat".data).length ≤ j ∨ j + ("cat".data).length ≤ i) :=
  claim_C7 "cat".data (by decide) "cat cat".data "cat".data (by decide) (by decide)

/-- C8: `normalizeText` equals the spec's single-table reference
normalization (curly quotes to straight quotes, en/em-dash and the arrow to
a hyphen, whitespace runs to one space, then trim), and the same
normalization is what both comparison sides go through: the matcher's
output, up to the echoed `word` field, depends on the word only through its
normalized-lowercased form. -/
theorem claim_C8 :
    (∀ s : List Char, normalizeText s = normSpec s) ∧
    (∀ (tns : List TextNode) (w1 w2 : List Char), normLower w1 = normLower w2 →
       (findWordPure tns w1).map wipeWord = (findWordPure tns w2).map wipeWord) := by
  constructor
  · intro s
    unfold normalizeText normSpec
    rw [List.map_map, List.map_map, List.map_map]
    have hmap : s.map (((replArrow ∘ replDash) ∘ replQuote2) ∘ replQuote1) = s.map normSpecChar :=
      List.map_congr_left (fun a _ => replChar_eq_normSpecChar a)
    rw [hmap]
  · intro tns w1 w2 h
    have hst : strippedOf w1 = strippedOf w2 := by
      unfold strippedOf
      rw [h]
    rw [findWordPure_repr, findWordPure_repr, ← hst]
    by_cases hz : (strippedOf w1).length = 0
    · rw [if_pos hz, if_pos hz]
    · rw [if_neg hz, if_neg hz]
      apply flatMapMapCongr
      intro tn
      unfold wordLocsInLeaf
      apply flatMapMapCongr
      intro t
      by_cases h0 : t.length = 0
      · rw [if_pos h0, if_pos h0]
      · rw [if_neg h0, if_neg h0, List.map_map, List.map_map]
        refine List.map_congr_left ?_
        intro fi _
        simp [wipeWord, mkLoc]

theorem claim_C8_witness :
    (findWordPure [wkLeaf] "well–known".data).map wipeWord
      = (findWordPure [wkLeaf] "well-known".data).map wipeWord :=
  claim_C8.2 [wkLeaf] "well–known".data "well-known".data (by decide)

/-- C9: unmatched input degrades to empty locations, never to an error (in
this embedding every function is total, so the content of the claim is the
degraded results): a word whose normalized stripped form is empty yields no
location; a scope with no eligible text nodes yields results whose
locations are all empty; an empty sentence yields an empty locations
list. -/
theorem claim_C9 :
    (∀ (tns : List TextNode) (w : List Char), strippedOf w = [] → findWordPure tns w = []) ∧
    (∀ (body : DomNode) (sents : List GPTZeroSentence) (opts : ScopeOpt),
       collectNodes body opts = [] →
       ∀ r ∈ locateSentences body sents opts, r.locations = []) ∧
    (∀ (body : DomNode) (sents : List GPTZeroSentence) (opts : ScopeOpt),
       ∀ r ∈ locateSentences body sents opts, r.sentence = [] → r.locations = []) := by
  refine ⟨?_, ?_, ?_⟩
  · intro tns w h
    unfold findWordPure findWordInTextNodes
    rw [h]
    rfl
  · intro body sents opts h r hr
    unfold locateSentences at hr
    rw [h] at hr
    exact locateSentencesAux_nilNodes sents [] [] r hr
  · intro body sents opts r hr hsent
    unfold locateSentences at hr
    exact locateSentencesAux_emptySentence (collectNodes body opts) sents [] [] r hr hsent

theorem claim_C9_witness : findWordPure [leafCat] ".".data = [] :=
  claim_C9.1 [leafCat] ".".data (by decide)

/-- C10: matches are per-leaf — the matcher's output on a list of leaves is
the concatenation of its outputs leaf by leaf, and every span stays inside
its own leaf; the leaf edges act as word boundaries: the word `category`
split across adjacent leaves `cate` / `gory` is never located, while `cat`
flush against the edge of leaf `cat` (continuing as `egory` in the next
leaf) is accepted as a full-word match. -/
theorem claim_C10 :
    (∀ (tn : TextNode) (tns : List TextNode) (w : List Char),
       findWordPure (tn :: tns) w = findWordPure [tn] w ++ findWordPure tns w) ∧
    (∀ (tns : List TextNode) (w : List Char), ∀ l ∈ findWordPure tns w,
       l.endOffset ≤ l.textNode.content.length) ∧
    findWordPure [leafCate, leafGory] "category".data = [] ∧
    findWordPure [leafCat, leafEgory] "cat".data = [catLoc] := by
  refine ⟨?_, ?_, by decide, by decide⟩
  · intro tn tns w
    rw [findWordPure_repr, findWordPure_repr, findWordPure_repr]
    by_cases hz : (strippedOf w).length = 0
    · rw [if_pos hz, if_pos hz, if_pos hz]
      rfl
    · rw [if_neg hz, if_neg hz, if_neg hz]
      simp [List.flatMap_cons]
  · intro tns w l hl
    obtain ⟨tn, _, t, _, _, fi, _, hleq⟩ := mem_findWordPure hl
    subst hleq
    simp only [mkLoc]
    exact Nat.min_le_right _ _

theorem claim_C10_witness : catLoc.endOffset ≤ catLoc.textNode.content.length :=
  claim_C10.2.1 [leafCat, leafEgory] "cat".data catLoc (by decide)
